import Mathlib

/-!
Verification development for the anycode symbol engine.

The definitions below are a shallow embedding of the code in
`src/features/symbols.ts` (document outline builder, workspace symbol
provider, lazy workspace index) and of the `CompletionItemProvider` and
`ReferencesProvider` classes (LSP server features).  Pure functions are
translated to Lean functions; the object-mutating tree construction of
`provideDocumentSymbols` is rendered as a fold over an explicit arena
(node ids are arena indices, `childs` is the per-node children table that
the code updates by `parent.children.push(node)`); JavaScript `Map`s are
rendered as insertion-ordered association lists; thrown exceptions are
rendered with `Except`.
-/

set_option maxHeartbeats 4000000

namespace Anycode

/-- A document position: zero-based line and character (vscode.Position). -/
structure Pos where
  line : Nat
  char : Nat
deriving DecidableEq, Repr, Inhabited

/-- Document order on positions (`isBeforeOrEqual`): lexicographic on (line, character). -/
def posLe (a b : Pos) : Bool :=
  decide (a.line < b.line ∨ (a.line = b.line ∧ a.char ≤ b.char))

/-- Strict document order on positions (`isBefore`). -/
def posLt (a b : Pos) : Bool :=
  decide (a.line < b.line ∨ (a.line = b.line ∧ a.char < b.char))

/-- A range over positions (vscode.Range); `startPos`/`endPos` are the `start`/`end` fields. -/
structure Rng where
  startPos : Pos
  endPos : Pos
deriving DecidableEq, Repr, Inhabited

/-- vscode `Range.contains(range)` for well-formed ranges: non-strict containment,
`this.start <= other.start` and `other.end <= this.end`. -/
def Rng.containsR (a b : Rng) : Bool :=
  posLe a.startPos b.startPos && posLe b.endPos a.endPos

/-- One tagged match of the symbol query: `capture.name`, `capture.node.text`, and
`asCodeRange(capture.node)`. -/
structure Capture where
  name : String
  text : String
  range : Rng
deriving DecidableEq, Repr, Inhabited

/-- The closed symbol kind enumeration (vscode.SymbolKind). -/
inductive SymbolKind where
  | file | module | namespc | package | cls | method | property | field
  | constructorK | enum | interfaceK | functionK | variableK | constant
  | string | number | boolean | array | object | key | nullK | enumMember
  | struct | event | operator | typeParameter
deriving DecidableEq, Repr, Inhabited

/-- The `_symbolKindMapping` table of `symbols.ts` with its documented default:
unknown labels map to `Variable`. -/
def getSymbolKind (s : String) : SymbolKind :=
  match s with
  | "file" => .file
  | "module" => .module
  | "namespace" => .namespc
  | "package" => .package
  | "class" => .cls
  | "method" => .method
  | "property" => .property
  | "field" => .field
  | "constructor" => .constructorK
  | "enum" => .enum
  | "interface" => .interfaceK
  | "function" => .functionK
  | "variable" => .variableK
  | "constant" => .constant
  | "string" => .string
  | "number" => .number
  | "boolean" => .boolean
  | "array" => .array
  | "object" => .object
  | "key" => .key
  | "null" => .nullK
  | "enumMember" => .enumMember
  | "struct" => .struct
  | "event" => .event
  | "operator" => .operator
  | "typeParameter" => .typeParameter
  | _ => .variableK

/-- The containment `Node` of `provideDocumentSymbols`: a capture together with the
children attached to it by the containment-stack pass. -/
inductive Node where
  | mk : Capture → List Node → Node
deriving Repr, Inhabited

def Node.capture : Node → Capture
  | .mk c _ => c

def Node.children : Node → List Node
  | .mk _ cs => cs

/-- vscode.DocumentSymbol as produced by `provideDocumentSymbols`. -/
structure DocumentSymbol where
  name : String
  detail : String
  kind : SymbolKind
  range : Rng
  selectionRange : Rng
  children : List DocumentSymbol
deriving Repr, Inhabited

mutual

/-- The child loop of `build` in `provideDocumentSymbols`: the first child whose
capture name is `` `${node.capture.name}.name` `` becomes the name node and produces
no symbol; every other child is built recursively, in order. -/
def scanChildren (parentName : String) : List Node → Option Node × List DocumentSymbol
  | [] => (none, [])
  | ch :: rest =>
    if ch.capture.name == parentName ++ ".name" then
      (some ch, buildList rest)
    else
      let r := scanChildren parentName rest
      (r.1, build ch :: r.2)

/-- Builds each node of a list (the recursive `build(child, children)` calls). -/
def buildList : List Node → List DocumentSymbol
  | [] => []
  | n :: rest => build n :: buildList rest

/-- The `build` function of `provideDocumentSymbols`: materializes a containment
node into a DocumentSymbol, absorbing the first `<label>.name` child as the
symbol's name and selection range. -/
def build : Node → DocumentSymbol
  | .mk c cs =>
    let r := scanChildren c.name cs
    let nameNode := r.1.getD (.mk c cs)
    { name := nameNode.capture.text, detail := "",
      kind := getSymbolKind c.name,
      range := c.range, selectionRange := nameNode.capture.range,
      children := r.2 }

end

/-- State of the containment-stack pass of `provideDocumentSymbols`.  Node ids are
arena indices; `childs` is the children table (`node.children` in the code),
`roots` and `stack` hold ids (`roots`/`stack` in the code, stack top first). -/
structure BuildState where
  arena : List Capture
  childs : List (List Nat)
  roots : List Nat
  stack : List Nat
deriving Repr

/-- The pop/attach loop of `provideDocumentSymbols`: pop while the top does not
contain the new node's range; when the stack runs out the node becomes a root,
otherwise it is attached as a child of the first containing ancestor, which is
kept on the stack below the new node. -/
def attachLoop (arena : List Capture) (r : Rng) (id : Nat)
    (childs : List (List Nat)) (roots : List Nat) :
    List Nat → List (List Nat) × List Nat × List Nat
  | [] => (childs, roots ++ [id], [id])
  | p :: rest =>
    if (arena.getD p default).range.containsR r then
      (childs.set p (childs.getD p [] ++ [id]), roots, id :: p :: rest)
    else
      attachLoop arena r id childs roots rest

/-- One iteration of the capture loop of `provideDocumentSymbols`: allocate the
new node, then run the pop/attach loop. -/
def buildStep (s : BuildState) (c : Capture) : BuildState :=
  let id := s.arena.length
  let r := attachLoop s.arena c.range id (s.childs ++ [[]]) s.roots s.stack
  { arena := s.arena ++ [c], childs := r.1, roots := r.2.1, stack := r.2.2 }

def initState : BuildState := ⟨[], [], [], []⟩

/-- The full containment-stack pass over the capture sequence. -/
def runBuild (captures : List Capture) : BuildState :=
  captures.foldl buildStep initState

/-- Materializes the containment node with arena id `i` (fuel-indexed reading of
the children table; `runBuild` only ever creates child ids larger than the
parent id, so fuel `arena.length` is exact). -/
def toNode (arena : List Capture) (childs : List (List Nat)) : Nat → Nat → Node
  | 0, i => .mk (arena.getD i default) []
  | fuel + 1, i =>
    .mk (arena.getD i default) ((childs.getD i []).map (toNode arena childs fuel))

/-- `provideDocumentSymbols` of `symbols.ts`, starting from the ordered capture
sequence (the external parse/query steps supply `captures`): the containment
pass followed by `build` on every root. -/
def provideDocumentSymbols (captures : List Capture) : List DocumentSymbol :=
  let st := runBuild captures
  buildList (st.roots.map (toNode st.arena st.childs st.arena.length))

mutual

/-- Strict descendants of a symbol: every child together with its own strict
descendants, in order. -/
def subsOf : DocumentSymbol → List DocumentSymbol
  | ⟨_, _, _, _, _, cs⟩ => subsList cs

def subsList : List DocumentSymbol → List DocumentSymbol
  | [] => []
  | x :: rest => (x :: subsOf x) ++ subsList rest

end

/-! ### Well-nestedness of the capture sequence (spec section 3)

Captures arrive in document pre-order: for any earlier capture `a` and later
capture `b`, either `a`'s span contains `b`'s span, or `a` ends before `b`
starts with a strictly earlier start (disjoint, and ties on the start position
are ordered container first, as pre-order requires). -/

/-- A well-formed range: start not after end (tree-sitter node ranges). -/
def wfRange (r : Rng) : Prop := posLe r.startPos r.endPos = true

/-- Pre-order relation between an earlier and a later capture of a well-nested
sequence. -/
def wnRel (a b : Capture) : Prop :=
  a.range.containsR b.range = true ∨
    (posLe a.range.endPos b.range.startPos = true ∧
      posLt a.range.startPos b.range.startPos = true)

/-- Relation between the span of a closed forest root and any capture processed
after it: strictly later start and strictly later end, starting at or after the
root's end. -/
def rootStep (a b : Rng) : Prop :=
  posLe a.endPos b.startPos = true ∧ posLt a.startPos b.startPos = true ∧
    posLt a.endPos b.endPos = true

/-- Hereditary containment for containment nodes: every child's span is
contained in the node's span, recursively. -/
inductive NodeGood : Node → Prop where
  | mk (c : Capture) (cs : List Node)
      (hcont : ∀ ch ∈ cs, c.range.containsR ch.capture.range = true)
      (hrec : ∀ ch ∈ cs, NodeGood ch) : NodeGood (.mk c cs)

/-- The per-symbol part of the outline invariant: the symbol and each of its
descendants has a range containing its selection range and the ranges of all
its descendants. -/
def SymOk (d : DocumentSymbol) : Prop :=
  ∀ s ∈ d :: subsOf d,
    s.range.containsR s.selectionRange = true ∧
      ∀ x ∈ subsOf s, s.range.containsR x.range = true

/-- Invariant of the containment-stack pass, maintained by `buildStep`. -/
structure StepInv (s : BuildState) : Prop where
  hlen : s.childs.length = s.arena.length
  hstackLt : ∀ p ∈ s.stack, p < s.arena.length
  hrootsLt : ∀ i ∈ s.roots, i < s.arena.length
  hchildLt : ∀ i q, q ∈ s.childs.getD i [] → i < s.arena.length ∧ q < s.arena.length
  hchildCont : ∀ i q, q ∈ s.childs.getD i [] →
      (s.arena.getD i default).range.containsR (s.arena.getD q default).range = true
  hchain : List.Chain'
      (fun p q => (s.arena.getD q default).range.containsR (s.arena.getD p default).range = true)
      s.stack
  hroots : List.Chain' rootStep (s.roots.map (fun i => (s.arena.getD i default).range))
  hbottom : s.stack ≠ [] → s.roots.getLast? = s.stack.getLast?
  hempty : s.stack = [] → s.roots = []
  hwf : ∀ i < s.arena.length, wfRange (s.arena.getD i default).range

instance wnRelDecidable : ∀ a b : Capture, Decidable (wnRel a b) := fun a b => by
  unfold wnRel
  infer_instance

instance wfRangeDecidable : ∀ r : Rng, Decidable (wfRange r) := fun r => by
  unfold wfRange
  infer_instance

instance symOkDecidable : ∀ d : DocumentSymbol, Decidable (SymOk d) := fun d => by
  unfold SymOk
  infer_instance

/-! ### JavaScript `Map` model

Insertion-ordered association list: `jset` overwrites in place when the key is
present (a JS `Map.set` keeps the original insertion position) and appends
otherwise; iteration (`jvalues`) follows insertion order. -/

def jget [BEq α] (m : List (α × β)) (k : α) : Option β :=
  (m.find? (fun p => p.1 == k)).map (fun p => p.2)

def jset [BEq α] : List (α × β) → α → β → List (α × β)
  | [], k, v => [(k, v)]
  | (k', v') :: rest, k, v =>
    if k' == k then (k, v) :: rest else (k', v') :: jset rest k v

def jvalues (m : List (α × β)) : List β := m.map (fun p => p.2)

/-! ### ReferencesProvider (`provideReferences`) -/

/-- An LSP location. -/
structure Loc where
  uri : String
  range : Rng
deriving DecidableEq, Repr, Inhabited

/-- A usage entry of the symbol index (`usages`): `kind` may be undefined. -/
structure UsageEntry where
  kind : Option Nat
  location : Loc
deriving DecidableEq, Repr, Inhabited

/-- A definition entry of the symbol index (`symbols`): `kind` is always set. -/
structure DefEntry where
  kind : Nat
  location : Loc
deriving DecidableEq, Repr, Inhabited

/-- Modelled from the spec: `containsLocation` is imported from `../common`,
which is not among the provided sources.  Spec section 4.3 step 5 scans for
"the first entry whose location contains the cursor position": the location's
uri must equal the document's uri and the position must lie within its range. -/
def containsLocation (l : Loc) (uri : String) (pos : Pos) : Bool :=
  l.uri == uri && (posLe l.range.startPos pos && posLe pos l.range.endPos)

/-- Bucket key of a usage entry: `usage.kind ?? -1`. -/
def usageKey (u : UsageEntry) : Int :=
  match u.kind with
  | some k => (k : Int)
  | none => -1

/-- Adds a location to a kind bucket (`locationsByKind.get`/`set`/`push`). -/
def addLoc (m : List (Int × List Loc)) (k : Int) (l : Loc) : List (Int × List Loc) :=
  match jget m k with
  | none => jset m k [l]
  | some arr => jset m k (arr ++ [l])

/-- Loop state of `provideReferences`: the kind buckets and `thisKind`. -/
structure RefState where
  buckets : List (Int × List Loc)
  thisKind : Option Int
deriving Repr

/-- One iteration of the usage loop of `provideReferences`. -/
def procUsage (uri : String) (pos : Pos) (st : RefState) (u : UsageEntry) : RefState :=
  { buckets := addLoc st.buckets (usageKey u) u.location,
    thisKind :=
      if st.thisKind.isNone && containsLocation u.location uri pos then
        u.kind.map (fun k => (k : Int))
      else st.thisKind }

/-- One iteration of the definition loop of `provideReferences`: `thisKind` is
probed regardless of `includeDeclaration`, the bucket insertion only happens
when the flag is set. -/
def procDef (uri : String) (pos : Pos) (includeDecl : Bool) (st : RefState) (d : DefEntry) :
    RefState :=
  { buckets :=
      if includeDecl then addLoc st.buckets ((d.kind : Int)) d.location else st.buckets,
    thisKind :=
      if st.thisKind.isNone && containsLocation d.location uri pos then some ((d.kind : Int))
      else st.thisKind }

/-- Both loops of `provideReferences`, usages first. -/
def refFold (uri : String) (pos : Pos) (includeDecl : Bool) (us : List UsageEntry)
    (ds : List DefEntry) : RefState :=
  ds.foldl (procDef uri pos includeDecl) (us.foldl (procUsage uri pos) ⟨[], none⟩)

/-- `ReferencesProvider.provideReferences`, starting at the point where the
target identifier's index entries have been looked up (`usages.get(text)` and
`symbols.get(text)` are the two optional inputs). -/
def provideReferences (usages : Option (List UsageEntry)) (symbols : Option (List DefEntry))
    (includeDecl : Bool) (uri : String) (pos : Pos) : List Loc :=
  if usages.isNone && symbols.isNone then []
  else
    match (refFold uri pos includeDecl (usages.getD []) (symbols.getD [])).thisKind with
    | none =>
      (jvalues (refFold uri pos includeDecl (usages.getD []) (symbols.getD [])).buckets).flatten
    | some k =>
      ((jget (refFold uri pos includeDecl (usages.getD []) (symbols.getD [])).buckets k).getD [])
        ++ ((jget (refFold uri pos includeDecl (usages.getD [])
              (symbols.getD [])).buckets (-1)).getD [])

/-- Specification-side candidate list: keyed usage locations followed, when
declarations are included, by keyed definition locations. -/
def refCandidates (us : List UsageEntry) (ds : List DefEntry) (includeDecl : Bool) :
    List (Int × Loc) :=
  us.map (fun u => (usageKey u, u.location)) ++
    (if includeDecl then ds.map (fun d => ((d.kind : Int), d.location)) else [])

/-- Specification-side bucket: the locations carrying key `k`, in order. -/
def bucketOf (cands : List (Int × Loc)) (k : Int) : List Loc :=
  (cands.filter (fun p => p.1 == k)).map (fun p => p.2)

/-- Keys in discovery order: first occurrence order. -/
def firstKeys (l : List Int) : List Int :=
  l.foldl (fun acc k => if k ∈ acc then acc else acc ++ [k]) []

/-- The bucket map built by folding `addLoc` over a keyed candidate list. -/
def mkBuckets (cands : List (Int × Loc)) : List (Int × List Loc) :=
  cands.foldl (fun m p => addLoc m p.1 p.2) []

/-! ### CompletionItemProvider (`provideCompletionItems`) -/

/-- An LSP completion item: `kind` uses the numeric lsp.CompletionItemKind
values and is absent for plain local identifiers. -/
structure CompletionItem where
  label : String
  kind : Option Nat
deriving DecidableEq, Repr

/-- The `_kindMapping` table: numeric lsp.SymbolKind to numeric
lsp.CompletionItemKind; kinds outside the table map to nothing. -/
def lspKindMapping (k : Nat) : Option Nat :=
  if k = 5 then some 7        -- Class
  else if k = 11 then some 8  -- Interface
  else if k = 8 then some 5   -- Field
  else if k = 7 then some 10  -- Property
  else if k = 24 then some 23 -- Event
  else if k = 9 then some 4   -- Constructor
  else if k = 6 then some 2   -- Method
  else if k = 10 then some 13 -- Enum
  else if k = 22 then some 20 -- EnumMember
  else if k = 12 then some 3  -- Function
  else if k = 13 then some 6  -- Variable
  else none

/-- `CompletionItemProvider.provideCompletionItems`, starting from the
identifier captures of the current document and the index's definitions.
The definitions mapping is modelled from the spec (the `SymbolIndex` source is
not among the provided files): per name, the ordered kinds of its definition
entries; the code destructures the first entry of an empty per-name value,
which throws. The result is the JS `Map` keyed by identifier text (the code
returns its values in insertion order). -/
def provideCompletionItems (idCaptures : List Capture) (defs : List (String × List Nat)) :
    Except Unit (List (String × CompletionItem)) :=
  let m0 := idCaptures.foldl (fun m c => jset m c.text { label := c.text, kind := none }) []
  defs.foldlM
    (fun m kv =>
      match kv.2 with
      | [] => .error ()
      | firstKind :: _ => .ok (jset m kv.1 { label := kv.1, kind := lspKindMapping firstKind }))
    m0

/-! ### WorkspaceSymbolProvider -/

/-- A workspace symbol (vscode.SymbolInformation). -/
structure WSym where
  name : String
  kind : SymbolKind
  containerName : String
  uri : String
  range : Rng
deriving DecidableEq, Repr

/-- JS `String.prototype.endsWith` (suffix test on the character list). -/
def strEndsWith (s suf : String) : Bool := suf.toList.isSuffixOf s.toList

/-- JS `String.prototype.startsWith` (prefix test on the character list). -/
def strStartsWith (s pre : String) : Bool := pre.toList.isPrefixOf s.toList

/-- Case-insensitive character comparison. -/
def lowEq (a b : Char) : Bool := a.toLower == b.toLower

/-- Case-insensitive subsequence test. -/
def subseqCI : List Char → List Char → Bool
  | [], _ => true
  | _ :: _, [] => false
  | q :: qs, t :: ts => if lowEq q t then subseqCI qs ts else subseqCI (q :: qs) ts

/-- Word-start boundary for the fuzzy match: string start, after a space,
underscore or hyphen, or a lower-to-upper camelCase step. -/
def boundaryOk : Option Char → Char → Bool
  | none, _ => true
  | some p, t => p == ' ' || p == '_' || p == '-' || (p.isLower && t.isUpper)

/-- Search for a boundary-anchored start of the case-insensitive subsequence. -/
def fuzzyAt : Option Char → List Char → List Char → Bool
  | _, [], _ => true
  | _, _ :: _, [] => false
  | prev, q :: qs, t :: ts =>
    (boundaryOk prev t && lowEq q t && subseqCI qs ts) || fuzzyAt (some t) (q :: qs) ts

/-- Modelled from the spec: `matchesFuzzy` is imported from `common.ts` but not
present in the provided sources.  Glossary / section 4.5 / section 8:
case-insensitive subsequence matching whose first matched character sits at a
separator boundary (query "fb" matches "fooBar" and "foo_bar" but not
"abcfb"). -/
def matchesFuzzy (query text : String) : Bool :=
  fuzzyAt none query.toList text.toList

/-- A `\w` word character (ASCII letters, digits, underscore). -/
def isWordChar (c : Char) : Bool := c.isAlpha || c.isDigit || c == '_'

/-- The `/\w{1,}/.test(search)` guard of `_findWithIndex`. -/
def containsWordChar (s : String) : Bool := s.toList.any isWordChar

/-- A whitespace, underscore or hyphen character (`[\s_-]`, with `\s` modelled
by the common whitespace characters). -/
def isBoundaryChar (c : Char) : Bool :=
  c == ' ' || c == '\t' || c == '\n' || c == '\r' || c == '_' || c == '-'

/-- Matches `c1\w*c2\w*...cn\w*` at the current point: each remaining search
character in order, case-insensitively, with word characters in between. -/
def chainAfter : List Char → List Char → Bool
  | [], _ => true
  | _ :: _, [] => false
  | q :: qs, t :: ts =>
    (lowEq q t && chainAfter qs ts) || (isWordChar t && chainAfter (q :: qs) ts)

/-- Matches the search chain starting exactly here (first character first). -/
def startMatch : List Char → List Char → Bool
  | [], _ => true
  | _ :: _, [] => false
  | q :: qs, t :: ts => lowEq q t && chainAfter qs ts

/-- Scans the text for a `[\s_-]` boundary followed by the search chain. -/
def prefilterLoop (qs : List Char) : List Char → Bool
  | [] => false
  | t :: ts => (isBoundaryChar t && startMatch qs ts) || prefilterLoop qs ts

/-- The prefilter regular expression `(^|[\s_-])c1\w*c2\w*...cn\w*` of
`_findWithIndex`, case-insensitive, modelled as a recursive matcher (search
characters are treated literally; the code's `try/catch` around `new RegExp`
is not modelled). -/
def prefilterTest (search source : String) : Bool :=
  startMatch search.toList source.toList || prefilterLoop search.toList source.toList

/-- `isInteresting` of `common.ts`: documents with a `git` or `vsls` uri scheme
are skipped. -/
def isInterestingDoc (scheme : String) : Bool := !(scheme == "git" || scheme == "vsls")

/-- The keys of `_symbolQueries._data`: languages with a symbol query. -/
def supportedLangs : List String :=
  ["typescript", "php", "python", "java", "c", "cpp", "csharp", "go", "rust"]

/-- `_symbolQueries.isSupported`. -/
def isSupported (lang : String) : Bool := supportedLangs.contains lang

/-- `WorkspaceIndex.languageMapping`: language id to file suffixes. -/
def languageMapping : List (String × List String) :=
  [("typescript", ["ts", "tsx"]),
   ("php", ["php", "php4", "php5", "phtml", "ctp"]),
   ("python", ["py", "rpy", "pyw", "cpy", "gyp", "gypi", "pyi", "ipy"]),
   ("go", ["go"]),
   ("java", ["java"]),
   ("c", ["c", "i"]),
   ("cpp", ["cpp", "cc", "cxx", "c++", "hpp", "hh", "hxx", "h++", "h", "ii", "ino", "inl",
            "ipp", "ixx", "hpp.in", "h.in"]),
   ("csharp", ["cs"]),
   ("rust", ["rs"])]

/-- The language detection loop of `_findWithIndex`: the first mapping entry
with a matching `.suffix`, or the empty language id. -/
def detectLanguage (path : String) : String :=
  match languageMapping.find? (fun kv => kv.2.any (fun suf => strEndsWith path ("." ++ suf))) with
  | some kv => kv.1
  | none => ""

/-- A document as consumed by `_collectMatches`: its uri scheme, language id,
uri, and the captures the external parse/query steps produce for it (`none`
when no tree or no query is available). -/
structure WDoc where
  scheme : String
  languageId : String
  uri : String
  captures : Option (List Capture)
deriving Repr

/-- The body of the `forEach` over captures in `_collectMatches` for one
capture, given the capture at the preceding array index.  Reading
`array[index - 1].name` at index 0 throws a TypeError, modelled by `.error`. -/
def captureSymbol (search docUri : String) (prevCap : Option Capture) (c : Capture) :
    Except Unit (Option WSym) :=
  if !(strEndsWith c.name ".name") then .ok none
  else if search.length == 0 || matchesFuzzy search c.text then
    match prevCap with
    | none => .error ()
    | some p =>
      let base : WSym :=
        { name := c.text, kind := .struct, containerName := "", uri := docUri, range := c.range }
      if strStartsWith c.name p.name then
        .ok (some { base with containerName := p.name, kind := getSymbolKind p.name })
      else .ok (some base)
  else .ok none

/-- The capture loop of `_collectMatches`. -/
def collectCore (search docUri : String) :
    Option Capture → List Capture → Except Unit (List WSym)
  | _, [] => .ok []
  | prevCap, c :: rest => do
    let s ← captureSymbol search docUri prevCap c
    let r ← collectCore search docUri (some c) rest
    .ok (s.toList ++ r)

/-- `WorkspaceSymbolProvider._collectMatches` for one document. -/
def collectMatches (search : String) (d : WDoc) : Except Unit (List WSym) :=
  if !(isInterestingDoc d.scheme) || !(isSupported d.languageId) then .ok []
  else
    match d.captures with
    | none => .ok []
    | some caps => collectCore search d.uri none caps

/-- One file of the lazy workspace index (`Entry`): its uri (as string and
path), scheme, on-disk size, decoded content, and the captures the external
parse/query steps would produce for its content. -/
structure FileEntry where
  uriStr : String
  path : String
  scheme : String
  size : Nat
  content : String
  captures : Option (List Capture)
deriving Repr

/-- `Entry.load`: files larger than `1024 ** 2` bytes load as the empty
string, others as their decoded content. -/
def loadEntry (e : FileEntry) : String :=
  if 1024 ^ 2 < e.size then "" else e.content

/-- The per-entry task of a `_findWithIndex` batch: load, prefilter with the
regular expression, detect the language from the path, collect matches. -/
def processEntry (search : String) (e : FileEntry) : Except Unit (List WSym) :=
  let source := loadEntry e
  if !(prefilterTest search source) then .ok []
  else
    collectMatches search
      { scheme := e.scheme, languageId := detectLanguage e.path, uri := e.uriStr,
        captures := e.captures }

/-- Splits a list into consecutive chunks of `n` (fuel-indexed; with fuel at
least the list length this is exact). -/
def chunksF (n : Nat) : Nat → List α → List (List α)
  | 0, _ => []
  | _, [] => []
  | fuel + 1, l => l.take n :: chunksF n fuel (l.drop n)

/-- `allUris.slice(i, i + chunkSize)` for `i = 0, n, 2n, ...`. -/
def chunksOf (n : Nat) (l : List α) : List (List α) := chunksF n l.length l

/-- The batch loop of `_findWithIndex`: cancellation is checked before each
batch; a batch's entries are processed together (the code runs them
concurrently and awaits them all; completion order within a batch is modelled
as chunk order) and their symbols appended to the bucket. -/
def runBatches (search : String) (cancelled : Nat → Bool) :
    List (List FileEntry) → Nat → List WSym → Except Unit (List WSym)
  | [], _, acc => .ok acc
  | b :: rest, k, acc =>
    if cancelled k then .ok acc
    else do
      let rs ← b.mapM (processEntry search)
      runBatches search cancelled rest (k + 1) (acc ++ rs.flatten)

/-- `WorkspaceSymbolProvider._findWithIndex`: the word-character guard, then
the chunked batch loop over the indexed file entries (chunk size 50). -/
def findWithIndex (search : String) (entries : List FileEntry) (cancelled : Nat → Bool)
    (bucket : List WSym) : Except Unit (List WSym) :=
  if !(containsWordChar search) then .ok bucket
  else runBatches search cancelled (chunksOf 50 entries) 0 bucket

/-- The open-documents loop of `provideWorkspaceSymbols`: collect matches per
document, returning `undefined` (`none`) when cancellation is observed after a
document. -/
def docsLoop (search : String) (cancelledDoc : Nat → Bool) :
    List WDoc → Nat → List WSym → Except Unit (Option (List WSym))
  | [], _, acc => .ok (some acc)
  | d :: rest, i, acc => do
    let syms ← collectMatches search d
    if cancelledDoc i then .ok none
    else docsLoop search cancelledDoc rest (i + 1) (acc ++ syms)

/-- The `anycode.workspaceSymbols` configuration value. -/
inductive WMode where
  | off
  | documents
  | workspace
deriving DecidableEq, Repr

/-- `WorkspaceSymbolProvider.provideWorkspaceSymbols`: off yields nothing, the
open-documents pass always runs otherwise, and `workspace` mode additionally
runs `_findWithIndex` over the indexed entries, appending into the same
result array. -/
def provideWorkspaceSymbols (mode : WMode) (search : String) (openDocs : List WDoc)
    (entries : List FileEntry) (cancelledDoc cancelledBatch : Nat → Bool) :
    Except Unit (Option (List WSym)) :=
  match mode with
  | .off => .ok (some [])
  | .documents => docsLoop search cancelledDoc openDocs 0 []
  | .workspace => do
    match ← docsLoop search cancelledDoc openDocs 0 [] with
    | none => .ok none
    | some acc => do
      let r ← findWithIndex search entries cancelledBatch acc
      .ok (some r)

/-- `WorkspaceIndex.create`: the uri-keyed entry map, built with
`all.set(uri.toString(), new Entry(uri))`. -/
def createIndexMap (entries : List FileEntry) : List (String × FileEntry) :=
  entries.foldl (fun m e => jset m e.uriStr e) []

/-- The `all()` iterator of the workspace index: every entry whose key is not
the uri of a currently open text document, in insertion order. -/
def allIter (m : List (String × FileEntry)) (openUris : List String) : List FileEntry :=
  (m.filter (fun kv => !(openUris.contains kv.1))).map (fun kv => kv.2)


section OrderLemmas

theorem posLe_iff {a b : Pos} :
    posLe a b = true ↔ (a.line < b.line ∨ (a.line = b.line ∧ a.char ≤ b.char)) := by
  simp [posLe]

theorem posLt_iff {a b : Pos} :
    posLt a b = true ↔ (a.line < b.line ∨ (a.line = b.line ∧ a.char < b.char)) := by
  simp [posLt]

theorem posLe_refl (a : Pos) : posLe a a = true := by
  simp [posLe]

theorem posLe_trans {a b c : Pos} (h1 : posLe a b = true) (h2 : posLe b c = true) :
    posLe a c = true := by
  rw [posLe_iff] at h1 h2 ⊢
  omega

theorem posLt_le {a b : Pos} (h : posLt a b = true) : posLe a b = true := by
  rw [posLt_iff] at h
  rw [posLe_iff]
  omega

theorem posLt_of_not_le {a b : Pos} (h : posLe a b = false) : posLt b a = true := by
  rw [posLt_iff]
  have h2 : ¬ (a.line < b.line ∨ (a.line = b.line ∧ a.char ≤ b.char)) := by
    rw [← posLe_iff]
    simp [h]
  omega

theorem posLe_of_lt_le {a b c : Pos} (h1 : posLt a b = true) (h2 : posLe b c = true) :
    posLt a c = true := by
  rw [posLt_iff] at h1 ⊢
  rw [posLe_iff] at h2
  omega

theorem posLt_of_le_lt {a b c : Pos} (h1 : posLe a b = true) (h2 : posLt b c = true) :
    posLt a c = true := by
  rw [posLt_iff] at h2 ⊢
  rw [posLe_iff] at h1
  omega

theorem containsR_iff {a b : Rng} :
    a.containsR b = true ↔ (posLe a.startPos b.startPos = true ∧ posLe b.endPos a.endPos = true) := by
  simp [Rng.containsR]

theorem containsR_refl (a : Rng) : a.containsR a = true := by
  rw [containsR_iff]
  exact ⟨posLe_refl _, posLe_refl _⟩

theorem containsR_trans {a b c : Rng} (h1 : a.containsR b = true) (h2 : b.containsR c = true) :
    a.containsR c = true := by
  rw [containsR_iff] at h1 h2 ⊢
  exact ⟨posLe_trans h1.1 h2.1, posLe_trans h2.2 h1.2⟩

end OrderLemmas

/-- Unfolding of the pop/attach loop: it drops the stack frames whose ranges do
not contain the new range, then either makes the node a root (empty remainder)
or attaches it to the first containing frame. -/
theorem attachLoop_spec (arena : List Capture) (r : Rng) (id : Nat)
    (childs : List (List Nat)) (roots : List Nat) (stack : List Nat) :
    attachLoop arena r id childs roots stack =
      match stack.dropWhile (fun p => !((arena.getD p default).range.containsR r)) with
      | [] => (childs, roots ++ [id], [id])
      | p :: rest => (childs.set p (childs.getD p [] ++ [id]), roots, id :: p :: rest) := by
  induction stack with
  | nil => rfl
  | cons p rest ih =>
    by_cases h : (arena.getD p default).range.containsR r <;>
      simp only [List.getD_eq_getElem?_getD] at h <;>
      simp [attachLoop, List.dropWhile, h, List.getD_eq_getElem?_getD, ih]

/-- C1: outline tree construction follows the containment-stack algorithm.
Processing the captures in order (`runBuild` folds `buildStep` left to right),
each step pops the stack while the top element's span does not contain the new
capture's span; if the stack is then empty the capture becomes a new forest
root, otherwise it is attached as a child of the new top; the capture is then
pushed onto the stack. -/
theorem outline_follows_containment_stack (cs : List Capture) (c : Capture) (s : BuildState) :
    runBuild (cs ++ [c]) = buildStep (runBuild cs) c
    ∧ (buildStep s c).arena = s.arena ++ [c]
    ∧ (buildStep s c).stack =
        s.arena.length ::
          s.stack.dropWhile (fun p => !((s.arena.getD p default).range.containsR c.range))
    ∧ ((buildStep s c).roots, (buildStep s c).childs) =
        (match s.stack.dropWhile (fun p => !((s.arena.getD p default).range.containsR c.range)) with
         | [] => (s.roots ++ [s.arena.length], s.childs ++ [[]])
         | p :: _ =>
             (s.roots,
              (s.childs ++ [[]]).set p (((s.childs ++ [[]]).getD p []) ++ [s.arena.length]))) := by
  refine ⟨by simp [runBuild, List.foldl_append], ?_, ?_, ?_⟩
  · rfl
  · simp only [buildStep, attachLoop_spec]
    cases s.stack.dropWhile (fun p => !((s.arena.getD p default).range.containsR c.range)) with
    | nil => rfl
    | cons p rest => rfl
  · simp only [buildStep, attachLoop_spec]
    cases s.stack.dropWhile (fun p => !((s.arena.getD p default).range.containsR c.range)) with
    | nil => rfl
    | cons p rest => rfl

/-! ### C2: name-child absorption -/

/-- Unfolds the child scan of `build`: the first child matching
`` `${parent}.name` `` is the name node and is dropped from the built children. -/
theorem scanChildren_eq (pn : String) (cs : List Node) :
    scanChildren pn cs =
      match cs.find? (fun ch => ch.capture.name == pn ++ ".name") with
      | some nn =>
        (some nn, buildList (cs.eraseP (fun ch => ch.capture.name == pn ++ ".name")))
      | none => (none, buildList cs) := by
  induction cs with
  | nil => rfl
  | cons ch rest ih =>
    by_cases h : ch.capture.name == pn ++ ".name"
    · simp [scanChildren, h, List.find?, List.eraseP_cons, buildList]
    · simp only [scanChildren, h, List.find?_cons_of_neg, List.eraseP_cons,
        Bool.false_eq_true, if_neg, ih]
      cases hf : rest.find? (fun ch => ch.capture.name == pn ++ ".name") <;>
        simp [hf, ih, buildList, h]

/-- C2: name-child absorption.  For a containment node labeled `L`, when a first
immediate child labeled exactly `L.name` exists it supplies the symbol's name
(its matched text) and selectionRange (its span) and is removed from the built
children (it produces no symbol of its own); when none exists the node itself
supplies name and selectionRange. -/
theorem name_child_absorption (c : Capture) (cs : List Node) :
    (∀ nn, cs.find? (fun ch => ch.capture.name == c.name ++ ".name") = some nn →
      build (.mk c cs) =
        { name := nn.capture.text, detail := "", kind := getSymbolKind c.name,
          range := c.range, selectionRange := nn.capture.range,
          children := buildList (cs.eraseP (fun ch => ch.capture.name == c.name ++ ".name")) })
    ∧ (cs.find? (fun ch => ch.capture.name == c.name ++ ".name") = none →
      build (.mk c cs) =
        { name := c.text, detail := "", kind := getSymbolKind c.name,
          range := c.range, selectionRange := c.range, children := buildList cs }) := by
  constructor
  · intro nn h
    simp only [build, scanChildren_eq, h]
    rfl
  · intro h
    simp only [build, scanChildren_eq, h]
    simp [Node.capture]

theorem name_child_absorption_witness :
    build (.mk ⟨"class", "classtext", ⟨⟨0, 0⟩, ⟨0, 40⟩⟩⟩
        [.mk ⟨"class.name", "foo", ⟨⟨0, 6⟩, ⟨0, 9⟩⟩⟩ [],
         .mk ⟨"method", "m", ⟨⟨0, 12⟩, ⟨0, 30⟩⟩⟩ []]) =
      { name := "foo", detail := "", kind := .cls,
        range := ⟨⟨0, 0⟩, ⟨0, 40⟩⟩, selectionRange := ⟨⟨0, 6⟩, ⟨0, 9⟩⟩,
        children := [build (.mk ⟨"method", "m", ⟨⟨0, 12⟩, ⟨0, 30⟩⟩⟩ [])] }
    ∧ build (.mk ⟨"enum", "E", ⟨⟨1, 0⟩, ⟨1, 5⟩⟩⟩ []) =
      { name := "E", detail := "", kind := .enum,
        range := ⟨⟨1, 0⟩, ⟨1, 5⟩⟩, selectionRange := ⟨⟨1, 0⟩, ⟨1, 5⟩⟩, children := [] } := by
  constructor
  · have h := (name_child_absorption ⟨"class", "classtext", ⟨⟨0, 0⟩, ⟨0, 40⟩⟩⟩
      [.mk ⟨"class.name", "foo", ⟨⟨0, 6⟩, ⟨0, 9⟩⟩⟩ [],
       .mk ⟨"method", "m", ⟨⟨0, 12⟩, ⟨0, 30⟩⟩⟩ []]).1
      (.mk ⟨"class.name", "foo", ⟨⟨0, 6⟩, ⟨0, 9⟩⟩⟩ []) (by rfl)
    rw [h]
    simp [Node.capture, getSymbolKind, buildList]
  · have h := (name_child_absorption ⟨"enum", "E", ⟨⟨1, 0⟩, ⟨1, 5⟩⟩⟩ []).2 (by rfl)
    rw [h]
    simp [getSymbolKind, buildList]

/-! ### C9: oversized files load empty and contribute nothing -/

/-- C9: a workspace file whose on-disk size exceeds one MiB loads as the empty
string, and its batch task yields no symbol (the empty string never passes the
prefilter of a search containing a word character). -/
theorem large_file_contributes_nothing (e : FileEntry) (search : String)
    (hsize : 1024 ^ 2 < e.size) (hw : containsWordChar search = true) :
    loadEntry e = "" ∧ processEntry search e = .ok [] := by
  have hload : loadEntry e = "" := by
    simp only [loadEntry]
    rw [if_pos hsize]
  refine ⟨hload, ?_⟩
  have hne : search.toList ≠ [] := by
    intro h
    rw [containsWordChar, h] at hw
    simp [List.any] at hw
  have hpf : prefilterTest search "" = false := by
    unfold prefilterTest
    cases hq : search.toList with
    | nil => exact absurd hq hne
    | cons q qs => simp [startMatch, prefilterLoop]
  simp [processEntry, hload, hpf]

theorem large_file_contributes_nothing_witness :
    loadEntry ⟨"file:///a.ts", "/a.ts", "file", 1048577, "const foo = 1", some []⟩ = ""
    ∧ processEntry "foo" ⟨"file:///a.ts", "/a.ts", "file", 1048577, "const foo = 1", some []⟩ =
        .ok [] :=
  large_file_contributes_nothing ⟨"file:///a.ts", "/a.ts", "file", 1048577, "const foo = 1", some []⟩
    "foo" (by decide) (by decide)

/-! ### C10: the index iterator skips open documents -/

theorem mem_jset [BEq α] {m : List (α × β)} {k : α} {v : β} {kv : α × β}
    (h : kv ∈ jset m k v) : kv = (k, v) ∨ kv ∈ m := by
  induction m with
  | nil => simpa [jset] using h
  | cons p rest ih =>
    rcases p with ⟨k', v'⟩
    by_cases hp : (k' == k) = true
    · simp only [jset] at h
      rw [if_pos hp] at h
      rcases List.mem_cons.mp h with h1 | h1
      · exact Or.inl h1
      · exact Or.inr (List.mem_cons_of_mem _ h1)
    · simp only [jset] at h
      rw [if_neg hp] at h
      rcases List.mem_cons.mp h with h1 | h1
      · exact Or.inr (List.mem_cons.mpr (Or.inl h1))
      · rcases ih h1 with h2 | h2
        · exact Or.inl h2
        · exact Or.inr (List.mem_cons_of_mem _ h2)

/-- Every key of the created index map is the uri string of its entry. -/
theorem createIndexMap_keys (l : List FileEntry) :
    ∀ kv ∈ createIndexMap l, kv.1 = kv.2.uriStr := by
  suffices h : ∀ m, (∀ kv ∈ m, kv.1 = kv.2.uriStr) →
      ∀ kv ∈ l.foldl (fun m e => jset m e.uriStr e) m, kv.1 = kv.2.uriStr by
    exact h [] (by simp)
  induction l with
  | nil => intro m hm; simpa using hm
  | cons e rest ih =>
    intro m hm kv hkv
    refine ih (jset m e.uriStr e) ?_ kv hkv
    intro kv' hkv'
    rcases mem_jset hkv' with h | h
    · rw [h]
    · exact hm kv' h

/-- C10: the `all()` iterator of the workspace index yields exactly the index
entries whose uri is not that of a currently open text document. -/
theorem allIter_excludes_open (l : List FileEntry) (openUris : List String) (e : FileEntry) :
    e ∈ allIter (createIndexMap l) openUris ↔
      (e ∈ jvalues (createIndexMap l) ∧ openUris.contains e.uriStr = false) := by
  constructor
  · intro h
    simp only [allIter, List.mem_map, List.mem_filter] at h
    rcases h with ⟨kv, ⟨hmem, hflt⟩, hsnd⟩
    have hk := createIndexMap_keys l kv hmem
    refine ⟨List.mem_map.mpr ⟨kv, hmem, hsnd⟩, ?_⟩
    rw [← hsnd, ← hk]
    simpa using hflt
  · rintro ⟨hmem, hopen⟩
    rcases List.mem_map.mp hmem with ⟨kv, hkv, hsnd⟩
    have hk := createIndexMap_keys l kv hkv
    refine List.mem_map.mpr ⟨kv, List.mem_filter.mpr ⟨hkv, ?_⟩, hsnd⟩
    rw [hk, hsnd]
    simpa using hopen

/-! ### C8: container attachment in the workspace symbol search -/

/-- C8: for a kept capture (name-suffixed label, text matching the query), the
symbol is produced against the capture at the preceding array index: it gets a
container name and a kind derived from the preceding label exactly when the
current label is prefixed by the preceding one, and stays container-less with
the default `Struct` kind otherwise; the loop threads each capture as the
predecessor of the next. -/
theorem container_iff_label_prefixed (search docUri : String) (p c : Capture)
    (hname : strEndsWith c.name ".name" = true)
    (hkeep : (search.length == 0 || matchesFuzzy search c.text) = true) :
    captureSymbol search docUri (some p) c =
      .ok (some (if strStartsWith c.name p.name then
          { name := c.text, kind := getSymbolKind p.name, containerName := p.name,
            uri := docUri, range := c.range }
        else
          { name := c.text, kind := .struct, containerName := "", uri := docUri,
            range := c.range }))
    ∧ ∀ (prevCap : Option Capture) (rest : List Capture),
        collectCore search docUri prevCap (c :: rest) =
          (match captureSymbol search docUri prevCap c with
           | .error e => .error e
           | .ok s =>
             match collectCore search docUri (some c) rest with
             | .error e => .error e
             | .ok r => .ok (s.toList ++ r)) := by
  constructor
  · simp only [captureSymbol, hname, Bool.not_true, Bool.false_eq_true, if_false, hkeep,
      if_true]
    by_cases hsw : strStartsWith c.name p.name = true <;> simp [hsw]
  · intro prevCap rest
    rcases e1 : captureSymbol search docUri prevCap c with e | s
    · simp only [collectCore, e1]
      rfl
    · rcases e2 : collectCore search docUri (some c) rest with e | r <;>
        · simp only [collectCore, e1, e2]
          rfl

theorem container_iff_label_prefixed_witness :
    captureSymbol "" "file:///d.ts" (some ⟨"class", "Cbody", ⟨⟨0, 0⟩, ⟨0, 40⟩⟩⟩)
        ⟨"class.name", "foo", ⟨⟨0, 6⟩, ⟨0, 9⟩⟩⟩ =
      .ok (some (if strStartsWith "class.name" "class" then
          { name := "foo", kind := getSymbolKind "class", containerName := "class",
            uri := "file:///d.ts", range := ⟨⟨0, 6⟩, ⟨0, 9⟩⟩ }
        else
          { name := "foo", kind := .struct, containerName := "", uri := "file:///d.ts",
            range := ⟨⟨0, 6⟩, ⟨0, 9⟩⟩ })) :=
  (container_iff_label_prefixed "" "file:///d.ts" ⟨"class", "Cbody", ⟨⟨0, 0⟩, ⟨0, 40⟩⟩⟩
    ⟨"class.name", "foo", ⟨⟨0, 6⟩, ⟨0, 9⟩⟩⟩ (by decide) (by decide)).1

/-! ### C6: completion merges local identifiers with indexed definitions -/

/-- Boolean equality is false on distinct values. -/
theorem beq_false_of_ne [BEq α] [LawfulBEq α] {a b : α} (h : a ≠ b) : (a == b) = false := by
  cases hab : a == b
  · rfl
  · exact absurd (eq_of_beq hab) h

/-- Lookup after a JS `Map.set`. -/
theorem jget_jset [BEq α] [LawfulBEq α] (m : List (α × β)) (k : α) (v : β) (k' : α) :
    jget (jset m k v) k' = if k' == k then some v else jget m k' := by
  induction m with
  | nil =>
    by_cases h : k' = k
    · subst h; simp [jset, jget]
    · simp [jset, jget, List.find?, beq_false_of_ne h, beq_false_of_ne (Ne.symm h)]
  | cons p rest ih =>
    rcases p with ⟨k0, v0⟩
    by_cases h0 : k0 = k
    · subst h0
      by_cases h : k' = k0
      · subst h
        simp [jset, jget, List.find?]
      · simp [jset, jget, List.find?, beq_false_of_ne h, beq_false_of_ne (Ne.symm h)]
    · have hun : jset ((k0, v0) :: rest) k v = (k0, v0) :: jset rest k v := by
        simp [jset, beq_false_of_ne h0]
      rw [hun]
      by_cases h : k' = k0
      · subst h
        have h4 : (k' == k) = false := beq_false_of_ne h0
        simp [jget, List.find?, h4]
      · have h5 : (k0 == k') = false := beq_false_of_ne (Ne.symm h)
        have hl : jget ((k0, v0) :: jset rest k v) k' = jget (jset rest k v) k' := by
          simp [jget, List.find?, h5]
        rw [hl, ih]
        by_cases h6 : k' = k
        · subst h6; simp
        · simp [beq_false_of_ne h6, jget, List.find?, h5]

/-- Source (1) of the completion result: every identifier capture of the
current document yields a kind-less candidate under its text. -/
theorem completion_source1 (idCaptures : List Capture) (name : String) :
    ∀ m : List (String × CompletionItem),
      jget (idCaptures.foldl (fun m c => jset m c.text { label := c.text, kind := none }) m)
          name =
        if name ∈ idCaptures.map (fun c => c.text) then
          some { label := name, kind := none }
        else jget m name := by
  induction idCaptures with
  | nil => intro m; simp
  | cons c rest ih =>
    intro m
    rw [List.foldl_cons, ih]
    by_cases hr : name ∈ rest.map (fun c => c.text)
    · simp [hr]
    · simp only [hr, if_neg, List.map_cons, List.mem_cons, false_or]
      rw [jget_jset]
      by_cases hn : name = c.text
      · subst hn; simp
      · simp [hn, beq_false_of_ne hn]

/-- Source (2) of the completion result: folding the definitions mapping over
an initial map overwrites each name with a candidate carrying the kind of the
first definition entry. -/
theorem completion_source2 (defs : List (String × List Nat)) :
    ∀ m : List (String × CompletionItem),
      (∀ kv ∈ defs, kv.2 ≠ []) → (defs.map (fun kv => kv.1)).Nodup →
      ∃ mr,
        (defs.foldlM
          (fun m kv =>
            match kv.2 with
            | [] => Except.error ()
            | firstKind :: _ =>
              Except.ok (jset m kv.1 { label := kv.1, kind := lspKindMapping firstKind }))
          m : Except Unit (List (String × CompletionItem))) = .ok mr ∧
        ∀ name, jget mr name =
          match defs.find? (fun kv => kv.1 == name) with
          | some kv => some { label := kv.1, kind := lspKindMapping (kv.2.headD 0) }
          | none => jget m name := by
  induction defs with
  | nil =>
    intro m _ _
    exact ⟨m, rfl, fun name => rfl⟩
  | cons kv rest ih =>
    intro m hne hnd
    rcases hk : kv.2 with _ | ⟨f, tl⟩
    · exact absurd hk (hne kv (List.mem_cons_self _ _))
    · have hnd2 : kv.1 ∉ rest.map (fun kv => kv.1) ∧ (rest.map (fun kv => kv.1)).Nodup := by
        rw [List.map_cons, List.nodup_cons] at hnd
        exact hnd
      obtain ⟨mr, heq, hchar⟩ :=
        ih (jset m kv.1 { label := kv.1, kind := lspKindMapping f })
          (fun kv' h => hne kv' (List.mem_cons_of_mem _ h)) hnd2.2
      refine ⟨mr, ?_, ?_⟩
      · simp only [List.foldlM_cons, hk]
        exact heq
      · intro name
        rw [hchar name]
        by_cases hn : kv.1 = name
        · have hrest : rest.find? (fun kv' => kv'.1 == name) = none := by
            rw [List.find?_eq_none]
            intro kv' hmem
            have hne2 : kv'.1 ≠ name := by
              intro heq2
              exact hnd2.1 (List.mem_map.mpr ⟨kv', hmem, by rw [heq2, hn]⟩)
            simpa using hne2
          rw [hrest]
          have hfind : (kv :: rest).find? (fun kv' => kv'.1 == name) = some kv := by
            rw [List.find?_cons]
            simp [hn]
          rw [hfind, jget_jset]
          simp [← hn, hk]
        · have hfalse : (kv.1 == name) = false := beq_false_of_ne hn
          rw [List.find?_cons, hfalse]
          cases hfr : rest.find? (fun kv' => kv'.1 == name) with
          | none =>
            rw [jget_jset]
            have : (name == kv.1) = false := beq_false_of_ne (Ne.symm hn)
            simp [this]
          | some kv' => rfl

/-- C6: completion combines the two sources into one name-keyed mapping; a name
from the definitions index gets the kind of its first definition entry and
overwrites a same-named kind-less local identifier candidate; local identifier
captures supply the remaining kind-less candidates. -/
theorem completion_two_sources (idCaptures : List Capture) (defs : List (String × List Nat))
    (hne : ∀ kv ∈ defs, kv.2 ≠ []) (hnd : (defs.map (fun kv => kv.1)).Nodup) :
    ∃ m, provideCompletionItems idCaptures defs = .ok m ∧
      ∀ name, jget m name =
        match defs.find? (fun kv => kv.1 == name) with
        | some kv => some { label := kv.1, kind := lspKindMapping (kv.2.headD 0) }
        | none =>
          if name ∈ idCaptures.map (fun c => c.text) then
            some { label := name, kind := none }
          else none := by
  obtain ⟨mr, heq, hchar⟩ :=
    completion_source2 defs
      (idCaptures.foldl (fun m c => jset m c.text { label := c.text, kind := none }) [])
      hne hnd
  refine ⟨mr, heq, fun name => ?_⟩
  rw [hchar name]
  cases hf : defs.find? (fun kv => kv.1 == name) with
  | some kv => rfl
  | none => simpa using completion_source1 idCaptures name []

theorem completion_two_sources_witness :
    ∃ m,
      provideCompletionItems
          [⟨"identifier", "foo", ⟨⟨0, 0⟩, ⟨0, 3⟩⟩⟩, ⟨"identifier", "bar", ⟨⟨1, 0⟩, ⟨1, 3⟩⟩⟩]
          [("foo", [5]), ("baz", [12, 6])] = .ok m ∧
      ∀ name, jget m name =
        match [("foo", [5]), ("baz", [12, 6])].find? (fun kv => kv.1 == name) with
        | some kv => some { label := kv.1, kind := lspKindMapping (kv.2.headD 0) }
        | none =>
          if name ∈ [Capture.mk "identifier" "foo" ⟨⟨0, 0⟩, ⟨0, 3⟩⟩,
              Capture.mk "identifier" "bar" ⟨⟨1, 0⟩, ⟨1, 3⟩⟩].map (fun c => c.text) then
            some { label := name, kind := none }
          else none :=
  completion_two_sources
    [⟨"identifier", "foo", ⟨⟨0, 0⟩, ⟨0, 3⟩⟩⟩, ⟨"identifier", "bar", ⟨⟨1, 0⟩, ⟨1, 3⟩⟩⟩]
    [("foo", [5]), ("baz", [12, 6])] (by decide) (by decide)

/-! ### C3, C4: reference resolver buckets and tie-break -/

/-- The buckets of the reference fold: usage locations keyed by
`kind ?? -1`, then, when declarations are included, definition locations keyed
by their kind. -/
theorem refFold_buckets (uri : String) (pos : Pos) (flag : Bool) (us : List UsageEntry)
    (ds : List DefEntry) :
    (refFold uri pos flag us ds).buckets = mkBuckets (refCandidates us ds flag) := by
  have h1 : ∀ (us : List UsageEntry) (st : RefState),
      (us.foldl (procUsage uri pos) st).buckets =
        us.foldl (fun m u => addLoc m (usageKey u) u.location) st.buckets := by
    intro us
    induction us with
    | nil => intro st; rfl
    | cons u rest ih =>
      intro st
      rw [List.foldl_cons, List.foldl_cons, ih]
      rfl
  have h2 : ∀ (ds : List DefEntry) (st : RefState),
      (ds.foldl (procDef uri pos flag) st).buckets =
        if flag then ds.foldl (fun m d => addLoc m ((d.kind : Int)) d.location) st.buckets
        else st.buckets := by
    intro ds
    induction ds with
    | nil => intro st; cases flag <;> simp
    | cons d rest ih =>
      intro st
      rw [List.foldl_cons, ih]
      cases flag <;> simp [procDef]
  rw [refFold, h2, h1]
  cases flag
  · simp only [if_false, Bool.false_eq_true]
    simp [mkBuckets, refCandidates, List.foldl_map]
  · simp only [if_true]
    simp [mkBuckets, refCandidates, List.foldl_append, List.foldl_map]

/-- Membership in the discovery-ordered key list. -/
theorem mem_firstKeys (ks : List Int) (k : Int) : k ∈ firstKeys ks ↔ k ∈ ks := by
  suffices h : ∀ acc, (k ∈ ks.foldl (fun acc k => if k ∈ acc then acc else acc ++ [k]) acc ↔
      k ∈ acc ∨ k ∈ ks) by
    simpa [firstKeys] using h []
  induction ks with
  | nil => intro acc; simp
  | cons k0 rest ih =>
    intro acc
    rw [List.foldl_cons]
    by_cases h0 : k0 ∈ acc
    · rw [if_pos h0, ih]
      constructor
      · rintro (h | h)
        · exact Or.inl h
        · exact Or.inr (List.mem_cons_of_mem _ h)
      · rintro (h | h)
        · exact Or.inl h
        · rcases List.mem_cons.mp h with h | h
          · exact Or.inl (h ▸ h0)
          · exact Or.inr h
    · rw [if_neg h0, ih]
      simp only [List.mem_append, List.mem_singleton, List.mem_cons]
      tauto

/-- The discovery-ordered key list has no duplicates. -/
theorem firstKeys_nodup (ks : List Int) : (firstKeys ks).Nodup := by
  suffices h : ∀ acc : List Int, acc.Nodup →
      (ks.foldl (fun acc k => if k ∈ acc then acc else acc ++ [k]) acc).Nodup by
    exact h [] List.nodup_nil
  induction ks with
  | nil => intro acc hacc; simpa using hacc
  | cons k0 rest ih =>
    intro acc hacc
    rw [List.foldl_cons]
    by_cases h0 : k0 ∈ acc
    · rw [if_pos h0]; exact ih acc hacc
    · rw [if_neg h0]
      refine ih _ ?_
      simpa [List.nodup_append] using ⟨hacc, h0⟩

/-- Appending one key to the discovery order. -/
theorem firstKeys_append (ks : List Int) (k : Int) :
    firstKeys (ks ++ [k]) =
      if k ∈ firstKeys ks then firstKeys ks else firstKeys ks ++ [k] := by
  simp [firstKeys, List.foldl_append]

/-- Lookup in a graph-shaped association list. -/
theorem jget_graph (keys : List Int) (f : Int → List Loc) (k : Int) :
    jget (keys.map (fun k' => (k', f k'))) k = if k ∈ keys then some (f k) else none := by
  induction keys with
  | nil => simp [jget]
  | cons k0 rest ih =>
    by_cases h : k0 = k
    · subst h
      simp [jget, List.find?]
    · have hb : (k0 == k) = false := beq_false_of_ne h
      have hstep : jget ((k0, f k0) :: rest.map (fun k' => (k', f k'))) k =
          jget (rest.map (fun k' => (k', f k'))) k := by
        simp [jget, List.find?, hb]
      rw [List.map_cons, hstep, ih]
      have hiff : (k ∈ k0 :: rest) ↔ k ∈ rest := by
        constructor
        · intro hh
          rcases List.mem_cons.mp hh with hh | hh
          · exact absurd hh.symm h
          · exact hh
        · exact fun hh => List.mem_cons_of_mem _ hh
      rw [if_congr hiff rfl rfl]

/-- Updating a present key of a graph-shaped association list. -/
theorem jset_graph (keys : List Int) (f : Int → List Loc) (k : Int) (v : List Loc)
    (hnd : keys.Nodup) (hk : k ∈ keys) :
    jset (keys.map (fun k' => (k', f k'))) k v =
      keys.map (fun k' => (k', if k' = k then v else f k')) := by
  induction keys with
  | nil => cases hk
  | cons k0 rest ih =>
    rcases List.nodup_cons.mp hnd with ⟨h0, hnd'⟩
    rcases List.mem_cons.mp hk with h | h
    · subst h
      rw [List.map_cons, List.map_cons, jset]
      rw [if_pos (by simp)]
      have : rest.map (fun k' => (k', if k' = k then v else f k')) =
          rest.map (fun k' => (k', f k')) := by
        apply List.map_congr_left
        intro k' hk'
        have : k' ≠ k := fun hh => h0 (hh ▸ hk')
        simp [this]
      rw [this]
      simp
    · have hne : k0 ≠ k := fun hh => h0 (hh ▸ h)
      rw [List.map_cons, List.map_cons, jset]
      rw [if_neg (by simp [hne])]
      rw [ih hnd' h]
      simp [hne]

/-- Appending a fresh key to a graph-shaped association list. -/
theorem jset_graph_new (keys : List Int) (f : Int → List Loc) (k : Int) (v : List Loc)
    (hk : k ∉ keys) :
    jset (keys.map (fun k' => (k', f k'))) k v = keys.map (fun k' => (k', f k')) ++ [(k, v)] := by
  induction keys with
  | nil => rfl
  | cons k0 rest ih =>
    have hne : k0 ≠ k := fun hh => hk (hh ▸ List.mem_cons_self _ _)
    rw [List.map_cons, jset, if_neg (by simp [hne])]
    rw [ih (fun hh => hk (List.mem_cons_of_mem _ hh))]
    rfl

/-- A bucket of an extended candidate list. -/
theorem bucketOf_append (cands : List (Int × Loc)) (k0 : Int) (l : Loc) (k : Int) :
    bucketOf (cands ++ [(k0, l)]) k =
      bucketOf cands k ++ if k0 = k then [l] else [] := by
  by_cases h : k0 = k
  · subst h
    simp [bucketOf, List.filter_append]
  · simp [bucketOf, List.filter_append, beq_false_of_ne h, h]

/-- A key absent from the candidates has an empty bucket. -/
theorem bucketOf_of_not_mem (cands : List (Int × Loc)) (k : Int)
    (h : k ∉ cands.map (fun p => p.1)) : bucketOf cands k = [] := by
  simp only [bucketOf, List.map_eq_nil_iff]
  rw [List.filter_eq_nil_iff]
  intro p hp
  have : p.1 ≠ k := fun hh => h (List.mem_map.mpr ⟨p, hp, hh⟩)
  simp [this]

/-- The bucket map is the graph of `bucketOf` over the keys in discovery
order. -/
theorem mkBuckets_graph (cands : List (Int × Loc)) :
    mkBuckets cands =
      (firstKeys (cands.map (fun p => p.1))).map (fun k => (k, bucketOf cands k)) := by
  induction cands using List.reverseRecOn with
  | nil => rfl
  | append_singleton cands p ih =>
    rcases p with ⟨k, l⟩
    have hstep : mkBuckets (cands ++ [(k, l)]) = addLoc (mkBuckets cands) k l := by
      simp [mkBuckets, List.foldl_append]
    have hkeys : (cands ++ [(k, l)]).map (fun p => p.1) = cands.map (fun p => p.1) ++ [k] := by
      simp
    rw [hstep, ih, hkeys, firstKeys_append]
    by_cases hmem : k ∈ firstKeys (cands.map (fun p => p.1))
    · rw [if_pos hmem]
      have hjget : jget ((firstKeys (cands.map (fun p => p.1))).map
          (fun k' => (k', bucketOf cands k'))) k = some (bucketOf cands k) := by
        rw [jget_graph, if_pos hmem]
      simp only [addLoc, hjget]
      rw [jset_graph _ _ _ _ (firstKeys_nodup _) hmem]
      apply List.map_congr_left
      intro k' hk'
      by_cases h : k' = k
      · subst h
        simp [bucketOf_append]
      · have hne : k ≠ k' := fun hh => h hh.symm
        simp [bucketOf_append, h, hne]
    · rw [if_neg hmem]
      have hjget : jget ((firstKeys (cands.map (fun p => p.1))).map
          (fun k' => (k', bucketOf cands k'))) k = none := by
        rw [jget_graph, if_neg hmem]
      simp only [addLoc, hjget]
      rw [jset_graph_new _ _ _ _ hmem, List.map_append]
      have h1 : (firstKeys (cands.map (fun p => p.1))).map
            (fun k' => (k', bucketOf (cands ++ [(k, l)]) k')) =
          (firstKeys (cands.map (fun p => p.1))).map (fun k' => (k', bucketOf cands k')) := by
        apply List.map_congr_left
        intro k' hk'
        have hne : k ≠ k' := fun hh => hmem (hh ▸ hk')
        simp [bucketOf_append, hne]
      rw [h1]
      have h2 : bucketOf (cands ++ [(k, l)]) k = [l] := by
        rw [bucketOf_append, if_pos rfl]
        rw [bucketOf_of_not_mem]
        · rfl
        · intro hc
          exact hmem ((mem_firstKeys _ _).mpr hc)
      simp [h2]

/-- C3: the reference resolver tie-break.  With no `thisKind`, the result is
the union of all kind buckets flattened in discovery order; with a `thisKind`,
it is that kind's bucket followed by the unknown-kind (`-1`) bucket, so
entries of an unrelated kind are excluded while unknown-kind usages are always
included. -/
theorem reference_tiebreak (usages : Option (List UsageEntry)) (symbols : Option (List DefEntry))
    (flag : Bool) (uri : String) (pos : Pos) :
    provideReferences usages symbols flag uri pos =
      (match (refFold uri pos flag (usages.getD []) (symbols.getD [])).thisKind with
       | none =>
         (((firstKeys ((refCandidates (usages.getD []) (symbols.getD []) flag).map
             (fun p => p.1))).map
           (bucketOf (refCandidates (usages.getD []) (symbols.getD []) flag))).flatten)
       | some k =>
         bucketOf (refCandidates (usages.getD []) (symbols.getD []) flag) k ++
           bucketOf (refCandidates (usages.getD []) (symbols.getD []) flag) (-1)) := by
  by_cases hno : (usages.isNone && symbols.isNone) = true
  · rcases usages with _ | us
    · rcases symbols with _ | ds
      · cases flag <;> rfl
      · simp at hno
    · simp at hno
  · have hb := refFold_buckets uri pos flag (usages.getD []) (symbols.getD [])
    have hget : ∀ k0 : Int,
        ((if k0 ∈ firstKeys ((refCandidates (usages.getD []) (symbols.getD []) flag).map
              (fun p => p.1)) then
            some (bucketOf (refCandidates (usages.getD []) (symbols.getD []) flag) k0)
          else none).getD []) =
          bucketOf (refCandidates (usages.getD []) (symbols.getD []) flag) k0 := by
      intro k0
      by_cases h : k0 ∈ firstKeys ((refCandidates (usages.getD []) (symbols.getD []) flag).map
          (fun p => p.1))
      · rw [if_pos h]
        rfl
      · rw [if_neg h, bucketOf_of_not_mem _ _ (fun hc => h ((mem_firstKeys _ _).mpr hc))]
        rfl
    simp only [provideReferences]
    rw [if_neg hno]
    cases hts : (refFold uri pos flag (usages.getD []) (symbols.getD [])).thisKind with
    | none =>
      simp only [hts, hb, mkBuckets_graph, jvalues, List.map_map]
      rfl
    | some k =>
      simp only [hts, hb, mkBuckets_graph]
      rw [jget_graph, jget_graph, hget, hget]

/-- C4: usage entries are always bucket candidates regardless of the
`includeDeclaration` flag, while definition entries enter the buckets only
when the flag is set. -/
theorem usages_always_included_defs_flagged (uri : String) (pos : Pos)
    (us : List UsageEntry) (ds : List DefEntry) :
    (refFold uri pos false us ds).buckets = mkBuckets (refCandidates us [] false)
    ∧ (refFold uri pos true us ds).buckets = mkBuckets (refCandidates us ds true)
    ∧ ∀ (flag : Bool), ∀ u ∈ us,
        u.location ∈ (jvalues (refFold uri pos flag us ds).buckets).flatten := by
  refine ⟨?_, refFold_buckets uri pos true us ds, ?_⟩
  · rw [refFold_buckets]
    rfl
  · intro flag u hu
    rw [refFold_buckets, mkBuckets_graph]
    have hpair : (usageKey u, u.location) ∈ refCandidates us ds flag := by
      rw [refCandidates]
      exact List.mem_append_left _ (List.mem_map.mpr ⟨u, hu, rfl⟩)
    have hkey : usageKey u ∈ (refCandidates us ds flag).map (fun p => p.1) :=
      List.mem_map.mpr ⟨(usageKey u, u.location), hpair, rfl⟩
    refine List.mem_flatten.mpr
      ⟨bucketOf (refCandidates us ds flag) (usageKey u), ?_, ?_⟩
    · simp only [jvalues, List.map_map]
      exact List.mem_map.mpr ⟨usageKey u, (mem_firstKeys _ _).mpr hkey, rfl⟩
    · rw [bucketOf]
      exact List.mem_map.mpr ⟨(usageKey u, u.location),
        List.mem_filter.mpr ⟨hpair, by simp⟩, rfl⟩

theorem usages_always_included_defs_flagged_witness :
    (⟨some 13, ⟨"file:///b.ts", ⟨⟨2, 0⟩, ⟨2, 3⟩⟩⟩⟩ : UsageEntry).location ∈
      (jvalues (refFold "file:///b.ts" ⟨2, 1⟩ false
        [⟨some 13, ⟨"file:///b.ts", ⟨⟨2, 0⟩, ⟨2, 3⟩⟩⟩⟩]
        [⟨12, ⟨"file:///a.ts", ⟨⟨0, 0⟩, ⟨0, 3⟩⟩⟩⟩]).buckets).flatten :=
  (usages_always_included_defs_flagged "file:///b.ts" ⟨2, 1⟩
    [⟨some 13, ⟨"file:///b.ts", ⟨⟨2, 0⟩, ⟨2, 3⟩⟩⟩⟩]
    [⟨12, ⟨"file:///a.ts", ⟨⟨0, 0⟩, ⟨0, 3⟩⟩⟩⟩]).2.2 false
    ⟨some 13, ⟨"file:///b.ts", ⟨⟨2, 0⟩, ⟨2, 3⟩⟩⟩⟩ (List.mem_singleton.mpr rfl)

/-! ### C7: batch granularity and cancellation of the workspace scan -/

/-- Cancellation observed before batch `k` makes the batch loop behave exactly
like an uncancelled run over only the first `k - j` remaining batches. -/
theorem runBatches_cancel (search : String) (cancelled : Nat → Bool) (k : Nat)
    (hk : cancelled k = true) :
    ∀ (chs : List (List FileEntry)) (j : Nat) (acc : List WSym), j ≤ k →
      (∀ i, j ≤ i → i < k → cancelled i = false) →
      runBatches search cancelled chs j acc =
        runBatches search (fun _ => false) (chs.take (k - j)) j acc := by
  intro chs
  induction chs with
  | nil =>
    intro j acc _ _
    simp [runBatches]
  | cons b rest ih =>
    intro j acc hj hbefore
    by_cases hjk : j = k
    · subst hjk
      rw [Nat.sub_self]
      simp only [runBatches, hk, if_true, List.take_zero]
    · have hjlt : j < k := Nat.lt_of_le_of_ne hj hjk
      have hcf : cancelled j = false := hbefore j (Nat.le_refl j) hjlt
      have htake : (b :: rest).take (k - j) = b :: rest.take (k - (j + 1)) := by
        have h : k - j = (k - (j + 1)) + 1 := by omega
        rw [h, List.take_succ_cons]
      rw [htake]
      simp only [runBatches, hcf, Bool.false_eq_true, if_false]
      cases hm : b.mapM (processEntry search) with
      | error e => rfl
      | ok rs =>
        exact ih (j + 1) (acc ++ rs.flatten) (by omega)
          (fun i h1 h2 => hbefore i (by omega) h2)

/-- The chunking is fuel-insensitive once the fuel covers the list. -/
theorem chunksF_fuel (n : Nat) (hn : 0 < n) :
    ∀ (f1 : Nat) (f2 : Nat) (l : List α), l.length ≤ f1 → l.length ≤ f2 →
      chunksF n f1 l = chunksF n f2 l := by
  intro f1
  induction f1 with
  | zero =>
    intro f2 l h1 _
    have hl : l = [] := List.length_eq_zero.mp (Nat.le_zero.mp h1)
    subst hl
    cases f2 <;> rfl
  | succ f1 ih =>
    intro f2 l h1 h2
    cases l with
    | nil => cases f2 <;> rfl
    | cons a l' =>
      cases f2 with
      | zero => simp at h2
      | succ f2' =>
        simp only [chunksF]
        congr 1
        apply ih
        · rw [List.length_drop]
          simp only [List.length_cons] at h1 ⊢
          omega
        · rw [List.length_drop]
          simp only [List.length_cons] at h2 ⊢
          omega

/-- Unfolding of the chunking on a nonempty list. -/
theorem chunksOf_cons (n : Nat) (hn : 0 < n) (l : List α) (hl : l ≠ []) :
    chunksOf n l = l.take n :: chunksOf n (l.drop n) := by
  cases l with
  | nil => cases hl rfl
  | cons a l' =>
    rw [chunksOf, chunksOf]
    simp only [List.length_cons, chunksF]
    congr 1
    apply chunksF_fuel n hn
    · rw [List.length_drop]
      simp only [List.length_cons] at *
      omega
    · exact Nat.le_refl _

/-- Chunking a prefix of `n * k` elements gives the first `k` chunks. -/
theorem chunksOf_take (n : Nat) (hn : 0 < n) (k : Nat) :
    ∀ l : List α, chunksOf n (l.take (n * k)) = (chunksOf n l).take k := by
  induction k with
  | zero =>
    intro l
    simp [chunksOf, chunksF]
  | succ k ih =>
    intro l
    cases l with
    | nil => simp [chunksOf, chunksF]
    | cons a l' =>
      have hpos : 0 < n * (k + 1) := Nat.mul_pos hn (Nat.succ_pos k)
      have hl : (a :: l').take (n * (k + 1)) ≠ [] := by
        cases hmk : n * (k + 1) with
        | zero => omega
        | succ m => simp [List.take_succ_cons]
      rw [chunksOf_cons n hn _ hl, chunksOf_cons n hn (a :: l') (by simp),
        List.take_succ_cons]
      congr 1
      · rw [List.take_take]
        have hle : n ≤ n * (k + 1) := Nat.le_mul_of_pos_right n (Nat.succ_pos k)
        rw [Nat.min_eq_left hle]
      · have hsplit : n * (k + 1) = n + n * k := by ring
        have hdt : ((a :: l').take (n * (k + 1))).drop n = ((a :: l').drop n).take (n * k) := by
          rw [hsplit, List.drop_take]
          congr 1
          omega
        rw [hdt, ih]

/-- C7: workspace-mode search processes the indexed files in sequential batches
of 50, and a cancellation first observed before batch `k` behaves exactly like
an uncancelled run over only the first `k` batches: the remaining batches are
aborted while the results of the completed batches and of the open-documents
pass are kept. -/
theorem workspace_cancel_between_batches (search : String) (openDocs : List WDoc)
    (entries : List FileEntry) (cancelledDoc cancelledBatch : Nat → Bool) (k : Nat)
    (hk : cancelledBatch k = true) (hbefore : ∀ j, j < k → cancelledBatch j = false) :
    provideWorkspaceSymbols .workspace search openDocs entries cancelledDoc cancelledBatch =
      provideWorkspaceSymbols .workspace search openDocs (entries.take (50 * k)) cancelledDoc
        (fun _ => false) := by
  have hfw : ∀ acc, findWithIndex search entries cancelledBatch acc =
      findWithIndex search (entries.take (50 * k)) (fun _ => false) acc := by
    intro acc
    simp only [findWithIndex]
    cases hg : containsWordChar search with
    | false => simp
    | true =>
      simp only [Bool.not_true, Bool.false_eq_true, if_false]
      rw [chunksOf_take 50 (by omega) k entries]
      have := runBatches_cancel search cancelledBatch k hk (chunksOf 50 entries) 0 acc
        (Nat.zero_le k) (fun i _ h2 => hbefore i h2)
      simpa using this
  simp only [provideWorkspaceSymbols, hfw]

theorem workspace_cancel_between_batches_witness :
    provideWorkspaceSymbols .workspace "foo" []
        [⟨"file:///a.ts", "/a.ts", "file", 10, "foo", some []⟩,
         ⟨"file:///b.ts", "/b.ts", "file", 10, "bar", some []⟩]
        (fun _ => false) (fun j => decide (1 ≤ j)) =
      provideWorkspaceSymbols .workspace "foo" []
        ([⟨"file:///a.ts", "/a.ts", "file", 10, "foo", some []⟩,
          ⟨"file:///b.ts", "/b.ts", "file", 10, "bar", some []⟩].take (50 * 1))
        (fun _ => false) (fun _ => false) :=
  workspace_cancel_between_batches "foo" []
    [⟨"file:///a.ts", "/a.ts", "file", 10, "foo", some []⟩,
     ⟨"file:///b.ts", "/b.ts", "file", 10, "bar", some []⟩]
    (fun _ => false) (fun j => decide (1 ≤ j)) 1 (by decide)
    (fun j hj => by
      have hj0 : j = 0 := by omega
      rw [hj0]
      rfl)

/-! ### C5: outline invariant -/

theorem getD_append_left {α : Type} [Inhabited α] (l l' : List α) (i : Nat) (d : α)
    (h : i < l.length) : (l ++ l').getD i d = l.getD i d := by
  induction l generalizing i with
  | nil => simp at h
  | cons a rest ih =>
    cases i with
    | zero => rfl
    | succ i =>
      simp only [List.length_cons] at h
      exact ih i (by omega)

theorem getD_snoc_self {α : Type} [Inhabited α] (l : List α) (c : α) (d : α) :
    (l ++ [c]).getD l.length d = c := by
  induction l with
  | nil => rfl
  | cons a rest ih => exact ih

theorem getD_of_le {α : Type} [Inhabited α] (l : List α) (i : Nat) (d : α)
    (h : l.length ≤ i) : l.getD i d = d := by
  induction l generalizing i with
  | nil => cases i <;> rfl
  | cons a rest ih =>
    cases i with
    | zero => simp at h
    | succ i =>
      simp only [List.length_cons] at h
      exact ih i (by omega)

theorem childs_snoc_getD (cs : List (List Nat)) (i : Nat) :
    (cs ++ [[]]).getD i [] = cs.getD i [] := by
  rcases Nat.lt_trichotomy i cs.length with h | h | h
  · exact getD_append_left cs [[]] i [] h
  · subst h
    rw [getD_snoc_self, getD_of_le cs _ [] (Nat.le_refl _)]
  · rw [getD_of_le _ _ _ (by simp; omega), getD_of_le _ _ _ (by omega)]

theorem getD_set_self (cs : List (List Nat)) (p : Nat) (v : List Nat)
    (h : p < cs.length) : (cs.set p v).getD p [] = v := by
  induction cs generalizing p with
  | nil => simp at h
  | cons a rest ih =>
    cases p with
    | zero => rfl
    | succ p =>
      simp only [List.length_cons] at h
      exact ih p (by omega)

theorem getD_set_ne (cs : List (List Nat)) (p i : Nat) (v : List Nat)
    (h : i ≠ p) : (cs.set p v).getD i [] = cs.getD i [] := by
  induction cs generalizing p i with
  | nil => cases p <;> rfl
  | cons a rest ih =>
    cases p with
    | zero =>
      cases i with
      | zero => cases h rfl
      | succ i => rfl
    | succ p =>
      cases i with
      | zero => rfl
      | succ i => exact ih p i (fun hh => h (by omega))

/-- The dropped-stack remainder is a suffix of the stack. -/
theorem dropWhile_isSuffix (p : α → Bool) (l : List α) : l.dropWhile p <:+ l := by
  induction l with
  | nil => exact List.suffix_refl _
  | cons a rest ih =>
    rw [List.dropWhile_cons]
    by_cases h : p a
    · rw [if_pos h]
      exact ih.trans (List.suffix_cons a rest)
    · rw [if_neg h]

/-- The head of the dropped remainder fails the predicate. -/
theorem dropWhile_head_false (p : α → Bool) (l : List α) (a : α) (l' : List α)
    (h : l.dropWhile p = a :: l') : p a = false := by
  induction l with
  | nil => simp at h
  | cons x xs ih =>
    rw [List.dropWhile_cons] at h
    by_cases hx : p x
    · rw [if_pos hx] at h
      exact ih h
    · rw [if_neg hx] at h
      cases h
      exact Bool.not_eq_true _ ▸ (by simpa using hx)

/-- A well-nested-related capture that the pop loop rejects starts a fresh
root: strictly later start and end, beginning at or after the popped end. -/
theorem rootStep_of {a c : Capture} (hwn : wnRel a c)
    (hnc : a.range.containsR c.range = false) : rootStep a.range c.range := by
  rcases hwn with hcont | ⟨hle, hlt⟩
  · rw [hcont] at hnc
    cases hnc
  · refine ⟨hle, hlt, ?_⟩
    have hs : posLe a.range.startPos c.range.startPos = true := posLt_le hlt
    have hcomp : posLe c.range.endPos a.range.endPos = false := by
      by_contra hne
      have h1 : posLe c.range.endPos a.range.endPos = true := by
        cases h : posLe c.range.endPos a.range.endPos
        · exact absurd h hne
        · rfl
      rw [containsR_iff.mpr ⟨hs, h1⟩] at hnc
      cases hnc
    exact posLt_of_not_le hcomp

/-- Strict order on both endpoints forbids containment either way. -/
theorem not_contains_of_lt {a b : Rng} (hs : posLt a.startPos b.startPos = true)
    (he : posLt a.endPos b.endPos = true) :
    a.containsR b = false ∧ b.containsR a = false := by
  constructor
  · have h1 : posLe b.endPos a.endPos = false := by
      rw [posLt_iff] at he
      cases h : posLe b.endPos a.endPos
      · rfl
      · rw [posLe_iff] at h
        omega
    rw [Rng.containsR, h1]
    simp
  · have h2 : posLe b.startPos a.startPos = false := by
      rw [posLt_iff] at hs
      cases h : posLe b.startPos a.startPos
      · rfl
      · rw [posLe_iff] at h
        omega
    rw [Rng.containsR, h2]
    simp

/-- A `rootStep` chain is pairwise strictly ordered on starts and ends. -/
theorem chain_rootStep_strict :
    ∀ (rest : List Rng) (f : Rng), List.Chain' rootStep (f :: rest) →
      ∀ b ∈ rest, posLt f.startPos b.startPos = true ∧ posLt f.endPos b.endPos = true := by
  intro rest
  induction rest with
  | nil => intro f _ b hb; cases hb
  | cons g rest' ih =>
    intro f hch b hb
    have hfg : rootStep f g := (List.chain'_cons.mp hch).1
    rcases List.mem_cons.mp hb with rfl | hb'
    · exact ⟨hfg.2.1, hfg.2.2⟩
    · have hg := ih g (List.chain'_cons.mp hch).2 b hb'
      exact ⟨posLt_of_le_lt (posLt_le hfg.2.1) hg.1, posLt_of_le_lt (posLt_le hfg.2.2) hg.2⟩

/-- A `rootStep` chain is pairwise non-containing. -/
theorem chain_rootStep_pairwise (l : List Rng) (hch : List.Chain' rootStep l) :
    List.Pairwise (fun a b => a.containsR b = false ∧ b.containsR a = false) l := by
  induction l with
  | nil => exact List.Pairwise.nil
  | cons f rest ih =>
    rw [List.pairwise_cons]
    refine ⟨?_, ih (List.Chain'.tail hch)⟩
    intro b hb
    have h := chain_rootStep_strict rest f hch b hb
    exact not_contains_of_lt h.1 h.2

/-- Componentwise unfolding of one `buildStep`. -/
theorem buildStep_parts (s : BuildState) (c : Capture) :
    (buildStep s c).arena = s.arena ++ [c] ∧
    ((buildStep s c).childs, (buildStep s c).roots, (buildStep s c).stack) =
      (match s.stack.dropWhile
          (fun p => !((s.arena.getD p default).range.containsR c.range)) with
       | [] => (s.childs ++ [[]], s.roots ++ [s.arena.length], [s.arena.length])
       | p :: rest =>
         ((s.childs ++ [[]]).set p (((s.childs ++ [[]]).getD p []) ++ [s.arena.length]),
          s.roots, s.arena.length :: p :: rest)) := by
  refine ⟨rfl, ?_⟩
  simp only [buildStep, attachLoop_spec]

/-- A chain for one relation is a chain for another agreeing on its members. -/
theorem chain'_congr_mem {α : Type} {R S : α → α → Prop} :
    ∀ l : List α, (∀ x ∈ l, ∀ y ∈ l, R x y → S x y) → List.Chain' R l → List.Chain' S l := by
  intro l
  induction l with
  | nil => intro _ _; exact List.chain'_nil
  | cons a l ih =>
    intro hrs hch
    rw [List.chain'_cons'] at hch ⊢
    refine ⟨?_, ih (fun x hx y hy => hrs x (List.mem_cons_of_mem _ hx) y
      (List.mem_cons_of_mem _ hy)) hch.2⟩
    intro y hy
    exact hrs a (List.mem_cons_self _ _) y
      (List.mem_cons_of_mem _ (List.mem_of_mem_head? hy)) (hch.1 y hy)

/-- The containment-pass invariant is preserved by one step, and the new stack
only holds the new id and survivors of the old stack. -/
theorem stepInv_step (s : BuildState) (c : Capture) (hs : StepInv s)
    (hwnc : ∀ p ∈ s.stack, wnRel (s.arena.getD p default) c)
    (hwfc : wfRange c.range) :
    StepInv (buildStep s c) ∧
      ∀ q ∈ (buildStep s c).stack, q = s.arena.length ∨ q ∈ s.stack := by
  obtain ⟨ha, hparts⟩ := buildStep_parts s c
  have hlen' : (buildStep s c).arena.length = s.arena.length + 1 := by
    rw [ha]
    simp
  have hstable : ∀ i, i < s.arena.length →
      (buildStep s c).arena.getD i default = s.arena.getD i default := by
    intro i hi
    rw [ha]
    exact getD_append_left _ _ _ _ hi
  have hnew : (buildStep s c).arena.getD s.arena.length default = c := by
    rw [ha]
    exact getD_snoc_self _ _ _
  have hwf' : ∀ i < (buildStep s c).arena.length,
      wfRange ((buildStep s c).arena.getD i default).range := by
    intro i hi
    rw [hlen'] at hi
    by_cases hlt : i < s.arena.length
    · rw [hstable i hlt]
      exact hs.hwf i hlt
    · have hid : i = s.arena.length := by omega
      subst hid
      rw [hnew]
      exact hwfc
  have hrootsmap : s.roots.map (fun i => ((buildStep s c).arena.getD i default).range) =
      s.roots.map (fun i => (s.arena.getD i default).range) := by
    apply List.map_congr_left
    intro i hi
    rw [hstable i (hs.hrootsLt i hi)]
  cases hkeep : s.stack.dropWhile
      (fun p => !((s.arena.getD p default).range.containsR c.range)) with
  | nil =>
    rw [hkeep] at hparts
    have hchilds : (buildStep s c).childs = s.childs ++ [[]] :=
      congrArg (fun x => x.1) hparts
    have hroots : (buildStep s c).roots = s.roots ++ [s.arena.length] :=
      congrArg (fun x => x.2.1) hparts
    have hstack : (buildStep s c).stack = [s.arena.length] :=
      congrArg (fun x => x.2.2) hparts
    have hall : ∀ p ∈ s.stack, (s.arena.getD p default).range.containsR c.range = false := by
      intro p hp
      have h := List.dropWhile_eq_nil_iff.mp hkeep p hp
      simpa using h
    refine ⟨⟨?_, ?_, ?_, ?_, ?_, ?_, ?_, ?_, ?_, hwf'⟩, ?_⟩
    · rw [hchilds, hlen']
      simp [hs.hlen]
    · intro q hq
      rw [hstack] at hq
      have hql := List.mem_singleton.mp hq
      rw [hlen', hql]
      omega
    · intro i hi
      rw [hroots] at hi
      rw [hlen']
      rcases List.mem_append.mp hi with h | h
      · exact Nat.lt_succ_of_lt (hs.hrootsLt i h)
      · have hil := List.mem_singleton.mp h
        omega
    · intro i q hq
      rw [hchilds, childs_snoc_getD] at hq
      have hb := hs.hchildLt i q hq
      rw [hlen']
      exact ⟨by omega, by omega⟩
    · intro i q hq
      rw [hchilds, childs_snoc_getD] at hq
      have hb := hs.hchildLt i q hq
      rw [hstable i hb.1, hstable q hb.2]
      exact hs.hchildCont i q hq
    · rw [hstack]
      exact List.chain'_singleton _
    · rw [hroots, List.map_append, hrootsmap]
      simp only [List.map_cons, List.map_nil, hnew]
      apply List.Chain'.append hs.hroots (List.chain'_singleton _)
      intro x hx y hy
      have hyc : c.range = y := by
        simpa using hy
      subst hyc
      cases hstk : s.stack with
      | nil =>
        rw [hs.hempty hstk] at hx
        simp at hx
      | cons t ts =>
        have hsne : s.stack ≠ [] := by
          rw [hstk]
          simp
        have hbot := hs.hbottom hsne
        have hglast := List.getLast?_eq_getLast_of_ne_nil hsne
        set b := s.stack.getLast hsne with hbdef
        have hbmem : b ∈ s.stack := List.getLast_mem hsne
        rw [hglast] at hbot
        have hrne : s.roots.dropLast ++ [b] = s.roots :=
          List.dropLast_append_getLast? b (by rw [hbot]; rfl)
        have hxval : (s.arena.getD b default).range = x := by
          rw [← hrne] at hx
          rw [List.map_append] at hx
          simp only [List.map_cons, List.map_nil] at hx
          rw [List.getLast?_concat] at hx
          simpa using hx
        subst hxval
        exact rootStep_of (hwnc b hbmem) (hall b hbmem)
    · intro _
      rw [hroots, hstack]
      rw [List.getLast?_concat]
      rfl
    · intro h
      rw [hstack] at h
      simp at h
    · intro q hq
      rw [hstack] at hq
      exact Or.inl (List.mem_singleton.mp hq)
  | cons p rest =>
    rw [hkeep] at hparts
    have hchilds : (buildStep s c).childs =
        (s.childs ++ [[]]).set p (((s.childs ++ [[]]).getD p []) ++ [s.arena.length]) :=
      congrArg (fun x => x.1) hparts
    have hroots : (buildStep s c).roots = s.roots := congrArg (fun x => x.2.1) hparts
    have hstack : (buildStep s c).stack = s.arena.length :: p :: rest :=
      congrArg (fun x => x.2.2) hparts
    have hsuffix : (p :: rest) <:+ s.stack := by
      rw [← hkeep]
      exact dropWhile_isSuffix _ _
    have hpmem : p ∈ s.stack := hsuffix.subset (List.mem_cons_self _ _)
    have hrestmem : ∀ q ∈ rest, q ∈ s.stack := fun q hq =>
      hsuffix.subset (List.mem_cons_of_mem _ hq)
    have hplt : p < s.arena.length := hs.hstackLt p hpmem
    have hpcont : (s.arena.getD p default).range.containsR c.range = true := by
      have h := dropWhile_head_false _ _ _ _ hkeep
      simpa using h
    have hcg : ∀ i, (buildStep s c).childs.getD i [] =
        if i = p then s.childs.getD p [] ++ [s.arena.length] else s.childs.getD i [] := by
      intro i
      by_cases h : i = p
      · subst h
        rw [hchilds, getD_set_self _ _ _ (by rw [List.length_append, hs.hlen]; simp; omega)]
        rw [childs_snoc_getD, if_pos rfl]
      · rw [hchilds, getD_set_ne _ _ _ _ h, childs_snoc_getD, if_neg h]
    refine ⟨⟨?_, ?_, ?_, ?_, ?_, ?_, ?_, ?_, ?_, hwf'⟩, ?_⟩
    · rw [hchilds, hlen']
      simp [hs.hlen]
    · intro q hq
      rw [hstack] at hq
      rw [hlen']
      rcases List.mem_cons.mp hq with rfl | hq'
      · omega
      · rcases List.mem_cons.mp hq' with rfl | hq''
        · omega
        · have := hs.hstackLt q (hrestmem q hq'')
          omega
    · intro i hi
      rw [hroots] at hi
      rw [hlen']
      have := hs.hrootsLt i hi
      omega
    · intro i q hq
      rw [hcg] at hq
      rw [hlen']
      by_cases h : i = p
      · subst h
        rw [if_pos rfl] at hq
        rcases List.mem_append.mp hq with h1 | h1
        · have := hs.hchildLt i q h1
          exact ⟨by omega, by omega⟩
        · have hq2 := List.mem_singleton.mp h1
          exact ⟨by omega, by omega⟩
      · rw [if_neg h] at hq
        have := hs.hchildLt i q hq
        exact ⟨by omega, by omega⟩
    · intro i q hq
      rw [hcg] at hq
      by_cases h : i = p
      · subst h
        rw [if_pos rfl] at hq
        rcases List.mem_append.mp hq with h1 | h1
        · have hb := hs.hchildLt i q h1
          rw [hstable i hb.1, hstable q hb.2]
          exact hs.hchildCont i q h1
        · have hq2 := List.mem_singleton.mp h1
          subst hq2
          rw [hstable i hplt, hnew]
          exact hpcont
      · rw [if_neg h] at hq
        have hb := hs.hchildLt i q hq
        rw [hstable i hb.1, hstable q hb.2]
        exact hs.hchildCont i q hq
    · rw [hstack, List.chain'_cons]
      constructor
      · rw [hstable p hplt, hnew]
        exact hpcont
      · have hold : List.Chain'
            (fun x y =>
              ((s.arena.getD y default).range.containsR (s.arena.getD x default).range) = true)
            (p :: rest) := hs.hchain.suffix hsuffix
        refine chain'_congr_mem (p :: rest) ?_ hold
        intro x hx y hy hr
        have hxlt := hs.hstackLt x (hsuffix.subset hx)
        have hylt := hs.hstackLt y (hsuffix.subset hy)
        rw [hstable x hxlt, hstable y hylt]
        exact hr
    · rw [hroots, hrootsmap]
      exact hs.hroots
    · intro _
      rw [hroots, hstack]
      have hsne : s.stack ≠ [] := by
        intro h
        rw [h] at hsuffix
        have := List.suffix_nil.mp hsuffix
        cases this
      rw [List.getLast?_cons_cons]
      have hlast : (p :: rest).getLast? = s.stack.getLast? := by
        obtain ⟨t, ht⟩ := hsuffix
        rw [← ht]
        exact (@List.getLast?_append_of_ne_nil _ t (p :: rest) (by simp)).symm
      rw [hlast]
      exact hs.hbottom hsne
    · intro h
      rw [hstack] at h
      simp at h
    · intro q hq
      rw [hstack] at hq
      rcases List.mem_cons.mp hq with rfl | hq'
      · exact Or.inl rfl
      · exact Or.inr (hsuffix.subset hq')

/-- The invariant holds at the start. -/
theorem stepInv_init : StepInv initState := by
  refine ⟨rfl, ?_, ?_, ?_, ?_, ?_, ?_, ?_, ?_, ?_⟩
  · intro p hp
    cases hp
  · intro i hi
    cases hi
  · intro i q hq
    rw [getD_of_le] at hq
    · cases hq
    · exact Nat.zero_le _
  · intro i q hq
    rw [getD_of_le] at hq
    · cases hq
    · exact Nat.zero_le _
  · exact List.chain'_nil
  · exact List.chain'_nil
  · intro h
    cases h rfl
  · intro _
    rfl
  · intro i hi
    exact absurd hi (Nat.not_lt_zero i)

/-- The invariant holds after folding any well-nested capture sequence. -/
theorem runBuild_inv_aux :
    ∀ (cs : List Capture) (s : BuildState), StepInv s →
      List.Pairwise wnRel cs → (∀ c ∈ cs, wfRange c.range) →
      (∀ c ∈ cs, ∀ p ∈ s.stack, wnRel (s.arena.getD p default) c) →
      StepInv (cs.foldl buildStep s) := by
  intro cs
  induction cs with
  | nil =>
    intro s hs _ _ _
    exact hs
  | cons c rest ih =>
    intro s hs hpw hwfl hfut
    rw [List.foldl_cons]
    obtain ⟨hs', hsub⟩ := stepInv_step s c hs
      (fun p hp => hfut c (List.mem_cons_self _ _) p hp)
      (hwfl c (List.mem_cons_self _ _))
    refine ih (buildStep s c) hs' (List.pairwise_cons.mp hpw).2
      (fun c' h => hwfl c' (List.mem_cons_of_mem _ h)) ?_
    intro c' hc' p hp
    rcases hsub p hp with rfl | hold
    · have harena : (buildStep s c).arena.getD s.arena.length default = c := by
        rw [(buildStep_parts s c).1]
        exact getD_snoc_self _ _ _
      rw [harena]
      exact (List.pairwise_cons.mp hpw).1 c' hc'
    · have hplt : p < s.arena.length := hs.hstackLt p hold
      have harena : (buildStep s c).arena.getD p default = s.arena.getD p default := by
        rw [(buildStep_parts s c).1]
        exact getD_append_left _ _ _ _ hplt
      rw [harena]
      exact hfut c' (List.mem_cons_of_mem _ hc') p hold

theorem toNode_capture (arena : List Capture) (childs : List (List Nat)) (fuel i : Nat) :
    (toNode arena childs fuel i).capture = arena.getD i default := by
  cases fuel <;> rfl

/-- Materialized nodes inherit hereditary containment from the children
table. -/
theorem toNode_good (arena : List Capture) (childs : List (List Nat))
    (hcont : ∀ i q, q ∈ childs.getD i [] →
      (arena.getD i default).range.containsR (arena.getD q default).range = true) :
    ∀ (fuel i : Nat), NodeGood (toNode arena childs fuel i) := by
  intro fuel
  induction fuel with
  | zero =>
    intro i
    exact NodeGood.mk _ _ (fun ch hch => absurd hch (List.not_mem_nil ch))
      (fun ch hch => absurd hch (List.not_mem_nil ch))
  | succ fuel ih =>
    intro i
    simp only [toNode]
    refine NodeGood.mk _ _ ?_ ?_
    · intro ch hch
      rcases List.mem_map.mp hch with ⟨q, hq, rfl⟩
      rw [toNode_capture]
      exact hcont i q hq
    · intro ch hch
      rcases List.mem_map.mp hch with ⟨q, hq, rfl⟩
      exact ih q

theorem buildList_eq_map : ∀ ns : List Node, buildList ns = ns.map build := by
  intro ns
  induction ns with
  | nil => rfl
  | cons n rest ih => simp [buildList, ih]

theorem build_range (n : Node) : (build n).range = n.capture.range := by
  cases n with
  | mk c cs => rfl

theorem scanChildren_fst_mem (pn : String) (cs : List Node) (nn : Node)
    (h : (scanChildren pn cs).1 = some nn) : nn ∈ cs := by
  cases hf : cs.find? (fun ch => ch.capture.name == pn ++ ".name") with
  | none =>
    simp only [scanChildren_eq, hf] at h
    exact Option.noConfusion h
  | some m =>
    simp only [scanChildren_eq, hf, Option.some.injEq] at h
    subst h
    exact List.mem_of_find?_eq_some hf

theorem scanChildren_snd_mem (pn : String) (cs : List Node) (d : DocumentSymbol)
    (h : d ∈ (scanChildren pn cs).2) : ∃ ch ∈ cs, d = build ch := by
  cases hf : cs.find? (fun ch => ch.capture.name == pn ++ ".name") with
  | none =>
    simp only [scanChildren_eq, hf, buildList_eq_map] at h
    rcases List.mem_map.mp h with ⟨ch, hch, heq⟩
    exact ⟨ch, hch, heq.symm⟩
  | some m =>
    simp only [scanChildren_eq, hf, buildList_eq_map] at h
    rcases List.mem_map.mp h with ⟨ch, hch, heq⟩
    exact ⟨ch, (List.eraseP_sublist cs).subset hch, heq.symm⟩

theorem subsOf_eq (d : DocumentSymbol) : subsOf d = subsList d.children := by
  cases d
  rfl

theorem mem_subsList : ∀ (l : List DocumentSymbol) (y : DocumentSymbol),
    y ∈ subsList l ↔ ∃ x ∈ l, y = x ∨ y ∈ subsOf x := by
  intro l
  induction l with
  | nil =>
    intro y
    simp [subsList]
  | cons x rest ih =>
    intro y
    simp only [subsList, List.mem_append, List.mem_cons, ih]
    constructor
    · rintro ((hy | hy) | ⟨z, hz, hzy⟩)
      · exact ⟨x, Or.inl rfl, Or.inl hy⟩
      · exact ⟨x, Or.inl rfl, Or.inr hy⟩
      · exact ⟨z, Or.inr hz, hzy⟩
    · rintro ⟨z, hz | hz', hzy⟩
      · subst hz
        rcases hzy with rfl | hy
        · exact Or.inl (Or.inl rfl)
        · exact Or.inl (Or.inr hy)
      · exact Or.inr ⟨z, hz', hzy⟩

/-- Containment of the selection range and of all children propagates to the
hereditary symbol invariant. -/
theorem symOk_of_children (d : DocumentSymbol)
    (hsel : d.range.containsR d.selectionRange = true)
    (hch : ∀ ch ∈ d.children, d.range.containsR ch.range = true ∧ SymOk ch) : SymOk d := by
  intro sym hsym
  rcases List.mem_cons.mp hsym with rfl | hsym'
  · refine ⟨hsel, ?_⟩
    intro x hx
    rw [subsOf_eq] at hx
    rcases (mem_subsList _ _).mp hx with ⟨ch, hchm, hcase⟩
    rcases hcase with rfl | hdesc
    · exact (hch x hchm).1
    · have h1 := ((hch ch hchm).2 ch (List.mem_cons_self _ _)).2 x hdesc
      exact containsR_trans (hch ch hchm).1 h1
  · rw [subsOf_eq] at hsym'
    rcases (mem_subsList _ _).mp hsym' with ⟨ch, hchm, hcase⟩
    rcases hcase with rfl | hdesc
    · exact (hch sym hchm).2 sym (List.mem_cons_self _ _)
    · exact (hch ch hchm).2 sym (List.mem_cons_of_mem _ hdesc)

/-- Building a hereditarily contained node yields a hereditarily contained
symbol. -/
theorem build_good : ∀ (n : Node), NodeGood n → SymOk (build n) := by
  intro n hn
  induction hn with
  | mk c cs hcont hrec ih =>
    apply symOk_of_children
    · cases hsc : (scanChildren c.name cs).1 with
      | none =>
        have hone : (build (.mk c cs)).selectionRange = c.range := by
          simp [build, hsc, Node.capture]
        rw [hone, build_range]
        exact containsR_refl _
      | some nn =>
        have hmem := scanChildren_fst_mem c.name cs nn hsc
        have hone : (build (.mk c cs)).selectionRange = nn.capture.range := by
          simp [build, hsc]
        rw [hone, build_range]
        simpa [Node.capture] using hcont nn hmem
    · intro ch hch
      have hch2 : ch ∈ (scanChildren c.name cs).2 := by
        simpa [build] using hch
      rcases scanChildren_snd_mem c.name cs ch hch2 with ⟨chn, hchn, rfl⟩
      constructor
      · rw [build_range, build_range]
        simpa [Node.capture] using hcont chn hchn
      · exact ih chn hchn

/-- C5: for a well-nested capture sequence (document pre-order; any two spans
disjoint or related by containment) every produced symbol's range contains its
selection range and every descendant symbol's range, and no root of the
produced forest contains another root. -/
theorem outline_symbol_invariant (cs : List Capture)
    (hwn : List.Pairwise wnRel cs) (hwf : ∀ c ∈ cs, wfRange c.range) :
    (∀ d ∈ provideDocumentSymbols cs, SymOk d)
    ∧ List.Pairwise
        (fun a b => a.range.containsR b.range = false ∧ b.range.containsR a.range = false)
        (provideDocumentSymbols cs) := by
  have hinv : StepInv (runBuild cs) :=
    runBuild_inv_aux cs initState stepInv_init hwn hwf
      (fun c _ p hp => absurd hp (List.not_mem_nil p))
  constructor
  · intro d hd
    simp only [provideDocumentSymbols, buildList_eq_map] at hd
    rcases List.mem_map.mp hd with ⟨nd, hnd, rfl⟩
    rcases List.mem_map.mp hnd with ⟨i, hi, rfl⟩
    exact build_good _ (toNode_good _ _ hinv.hchildCont _ _)
  · simp only [provideDocumentSymbols, buildList_eq_map, List.map_map]
    rw [List.pairwise_map]
    have hpw := chain_rootStep_pairwise _ hinv.hroots
    rw [List.pairwise_map] at hpw
    refine hpw.imp ?_
    intro i j hij
    simpa [build_range, toNode_capture] using hij

theorem outline_symbol_invariant_witness :
    (∀ d ∈ provideDocumentSymbols
        [⟨"class", "classtext", ⟨⟨0, 0⟩, ⟨0, 40⟩⟩⟩,
         ⟨"class.name", "foo", ⟨⟨0, 6⟩, ⟨0, 9⟩⟩⟩,
         ⟨"method", "methodtext", ⟨⟨0, 12⟩, ⟨0, 30⟩⟩⟩,
         ⟨"method.name", "bar", ⟨⟨0, 16⟩, ⟨0, 19⟩⟩⟩], SymOk d)
    ∧ List.Pairwise
        (fun a b => a.range.containsR b.range = false ∧ b.range.containsR a.range = false)
        (provideDocumentSymbols
          [⟨"class", "classtext", ⟨⟨0, 0⟩, ⟨0, 40⟩⟩⟩,
           ⟨"class.name", "foo", ⟨⟨0, 6⟩, ⟨0, 9⟩⟩⟩,
           ⟨"method", "methodtext", ⟨⟨0, 12⟩, ⟨0, 30⟩⟩⟩,
           ⟨"method.name", "bar", ⟨⟨0, 16⟩, ⟨0, 19⟩⟩⟩]) :=
  outline_symbol_invariant
    [⟨"class", "classtext", ⟨⟨0, 0⟩, ⟨0, 40⟩⟩⟩,
     ⟨"class.name", "foo", ⟨⟨0, 6⟩, ⟨0, 9⟩⟩⟩,
     ⟨"method", "methodtext", ⟨⟨0, 12⟩, ⟨0, 30⟩⟩⟩,
     ⟨"method.name", "bar", ⟨⟨0, 16⟩, ⟨0, 19⟩⟩⟩] (by decide) (by decide)

end Anycode
